import Mathlib

/-!
Verification of the ibs-tracker log repository, chart aggregation, and export
logic against its specification.

The development shallowly embeds the TypeScript source:

* `src/types.ts` data model becomes a Lean inductive/structure family
  (`LogEntry`, tagged by `LogData`).
* JavaScript numbers holding epoch-millisecond timestamps and 0-5 severities
  are embedded as `Int`.
* `src/utils/dateUtils.ts` functions (`isToday`,
  `formatTimestampToDateString`) call the ECMAScript `Date` accessors
  `getFullYear`/`getMonth`/`getDate`; these are embedded with the standard
  civil-from-days conversion (proleptic Gregorian calendar, day number
  `ediv timestamp 86400000`).  The host environment's local timezone is
  modelled as UTC (offset zero); the bucketing logic is offset-independent.
* `Array.prototype.sort` with a numeric or `localeCompare` comparator is a
  stable sort, embedded as `List.mergeSort`; `localeCompare` on the
  ASCII-only `YYYY-MM-DD` strings produced here is embedded as lexicographic
  comparison of the underlying character lists (`strLtB`), which is
  kernel-computable.
* `parseInputTimestamp` returns a JavaScript number that is either a finite
  integer or `NaN`; its result is embedded as `Option Int` (`none` = `NaN`).
-/

/-! ## Data model (src/types.ts) -/

/-- Bristol stool chart categories, `BristolStoolType` in src/types.ts. -/
inductive BristolStoolType where
  | type1 | type2 | type3 | type4 | type5 | type6 | type7
deriving DecidableEq, Repr

/-- Payload of a `SymptomLog` (fields besides id/timestamp/type). -/
structure SymptomData where
  bowelMovement : Option BristolStoolType
  crampsSeverity : Option Int
  bloatingSeverity : Option Int
  urgency : Option Bool
  notes : Option String
deriving DecidableEq, Repr

/-- Payload of an `IntakeLog` (fields besides id/timestamp/type). -/
structure IntakeData where
  item : String
  quantity : Option String
  notes : Option String
deriving DecidableEq, Repr

/-- Payload of a `StressLog` (fields besides id/timestamp/type). -/
structure StressData where
  level : Int
  notes : Option String
deriving DecidableEq, Repr

/-- The tagged-union payload: the `type` discriminant of `LogEntry`. -/
inductive LogData where
  | symptom (s : SymptomData)
  | intake (i : IntakeData)
  | stress (s : StressData)
deriving DecidableEq, Repr

/-- `LogEntry` from src/types.ts: common `id`/`timestamp` plus the tagged
payload. -/
structure LogEntry where
  id : String
  timestamp : Int
  data : LogData
deriving DecidableEq, Repr

/-- The value of the `type` discriminant field of an entry. -/
def LogEntry.type (e : LogEntry) : String :=
  match e.data with
  | .symptom _ => "symptom"
  | .intake _ => "intake"
  | .stress _ => "stress"

/-- `ChartDataPoint` from src/types.ts: one day of chart data, three nullable
channels. -/
structure ChartDataPoint where
  date : String
  cramps : Option Int
  bloating : Option Int
  stress : Option Int
deriving DecidableEq, Repr

/-! ## String comparison

`localeCompare` on the ASCII date strings produced by
`formatTimestampToDateString` is embedded as lexicographic comparison of the
character lists. -/

/-- Lexicographic strict comparison of character lists (by code point). -/
def charListLt : List Char → List Char → Bool
  | [], [] => false
  | [], _ :: _ => true
  | _ :: _, [] => false
  | a :: as, b :: bs => if a < b then true else if b < a then false else charListLt as bs

/-- Strict string comparison, the embedding of `localeCompare(x, y) < 0` for
the ASCII strings used by the chart. -/
def strLtB (s t : String) : Bool := charListLt s.data t.data

/-- Non-strict string comparison, the embedding of `localeCompare(x, y) <= 0`. -/
def strLeB (s t : String) : Bool := !(strLtB t s)

/-! ## Stable sorting

`Array.prototype.sort` is a stable sort; with a total, transitive comparator
its output is uniquely determined, so it is embedded as a structurally
recursive stable insertion sort (`stableSortBy le` keeps an element before
the later elements it compares `le`-equal to, as stability requires). -/

/-- Insert `a` before the first element `b` with `le a b`. -/
def insertLe {α : Type} (le : α → α → Bool) (a : α) : List α → List α
  | [] => [a]
  | b :: bs => if le a b then a :: b :: bs else b :: insertLe le a bs

/-- Stable insertion sort by the comparator `le` (the embedding of
`Array.prototype.sort` with a comparator whose `<= 0` relation is `le`). -/
def stableSortBy {α : Type} (le : α → α → Bool) : List α → List α
  | [] => []
  | a :: as => insertLe le a (stableSortBy le as)

/-! ## Date utilities (src/utils/dateUtils.ts)

`new Date(ms)` with the `getFullYear`/`getMonth`/`getDate` accessors is the
day number `ediv ms 86400000` sent through the civil-from-days conversion of
the proleptic Gregorian calendar (the calendar prescribed for ECMAScript
`Date`).  `Int` division `/` and `%` below are Euclidean, which for the
positive divisors used here is exactly the floor division the conversion
requires. -/

/-- Year-of-era lookup of a day-of-era: the year (March-based, 0-399) within
a 400-year Gregorian era that a day number 0 ≤ doe < 146097 falls in. -/
def yoeOf (doe : Nat) : Nat :=
  (doe - doe / 1460 + doe / 36524 - doe / 146096) / 365

/-- First day-of-era of the March-based year `y` of an era (0 ≤ y ≤ 400). -/
def dys (y : Nat) : Nat := 365 * y + y / 4 - y / 100

/-- Month and day-of-month of a day-of-year (0 = March 1, March-based year,
0 ≤ doy ≤ 365). -/
def mdOf (doy : Nat) : Nat × Nat :=
  let mp := (5 * doy + 2) / 153
  (if mp < 10 then mp + 3 else mp - 9, doy - (153 * mp + 2) / 5 + 1)

/-- Civil date within one 400-year era: maps a day-of-era (0 ≤ doe < 146097,
day 0 = March 1 of year 0 of the era) to `(year-within-era, month, day)`,
where year-within-era ∈ [0, 400] (January and February count toward the
next civil year). -/
def tripleOfDoe (doe : Nat) : Nat × Nat × Nat :=
  let yoe := yoeOf doe
  let md := mdOf (doe - dys yoe)
  (yoe + (if md.1 ≤ 2 then 1 else 0), md.1, md.2)

/-- Civil (proleptic Gregorian) date `(year, month, day)` of a day number
(days since 1970-01-01). -/
def civilFromDays (z : Int) : Int × Nat × Nat :=
  let u : Int := z + 719468
  let era : Int := u / 146097
  let t := tripleOfDoe (u % 146097).toNat
  (era * 400 + t.1, t.2.1, t.2.2)

/-- Day number of an epoch-millisecond timestamp (the calendar day the
`Date` accessors report, with the local timezone modelled as UTC). -/
def dayOfTimestamp (timestamp : Int) : Int := timestamp / 86400000

/-- `padStart(2, '0')` of a (small, nonnegative) number rendered in decimal. -/
def padTwo (n : Nat) : String :=
  let s := toString n
  if s.length < 2 then "0" ++ s else s

/-- `formatTimestampToDateString` from src/utils/dateUtils.ts:
`${year}-${month+1 padded}-${day padded}`. -/
def formatTimestampToDateString (timestamp : Int) : String :=
  let c := civilFromDays (dayOfTimestamp timestamp)
  toString c.1 ++ "-" ++ padTwo c.2.1 ++ "-" ++ padTwo c.2.2

/-- `isToday` from src/utils/dateUtils.ts: the timestamp's
`getDate`/`getMonth`/`getFullYear` all agree with today's (`now` is the
current epoch-millisecond time). -/
def isToday (timestamp : Int) (now : Int) : Bool :=
  decide (civilFromDays (dayOfTimestamp timestamp) = civilFromDays (dayOfTimestamp now))

/-! ## Chart aggregation (`processChartData` in src/components/DataChart.tsx) -/

/-- The fresh bucket `{ date: dateStr, cramps: null, bloating: null,
stress: null }`. -/
def emptyPoint (d : String) : ChartDataPoint :=
  { date := d, cramps := none, bloating := none, stress := none }

/-- One iteration of the `sortedLogs.forEach` body restricted to a single
bucket: fold `log` into the day's point. -/
def updatePoint (p : ChartDataPoint) (e : LogEntry) : ChartDataPoint :=
  match e.data with
  | .symptom s =>
    let p1 :=
      match s.crampsSeverity with
      | some c => { p with cramps := some (max (p.cramps.getD 0) c) }
      | none => p
    match s.bloatingSeverity with
    | some b => { p1 with bloating := some (max (p1.bloating.getD 0) b) }
    | none => p1
  | .intake _ => p
  | .stress s => { p with stress := some s.level }

/-- The `dailyData` dictionary, embedded as an association list in key
insertion order (JavaScript objects enumerate non-index string keys in
insertion order): find the bucket for `dateStr`, creating it at the end if
absent, and fold the entry into it. -/
def bucketUpdate (dateStr : String) (e : LogEntry) :
    List (String × ChartDataPoint) → List (String × ChartDataPoint)
  | [] => [(dateStr, updatePoint (emptyPoint dateStr) e)]
  | (d, p) :: rest =>
    if d = dateStr then (d, updatePoint p e) :: rest
    else (d, p) :: bucketUpdate dateStr e rest

/-- The `dailyData` dictionary after the `forEach` over a list of logs. -/
def buildDaily (logs : List LogEntry) : List (String × ChartDataPoint) :=
  logs.foldl (fun acc e => bucketUpdate (formatTimestampToDateString e.timestamp) e acc) []

/-- `processChartData` from src/components/DataChart.tsx: sort the logs
ascending by timestamp (stable), bucket them by formatted date, then sort
the buckets ascending by date string (`localeCompare`). -/
def processChartData (logs : List LogEntry) : List ChartDataPoint :=
  let sortedLogs := stableSortBy (fun a b => decide (a.timestamp ≤ b.timestamp)) logs
  let dailyData := buildDaily sortedLogs
  stableSortBy (fun a b => strLeB a.date b.date) (dailyData.map Prod.snd)

/-! ## Log repository CRUD (src/App.tsx) -/

/-- Ascending-by-timestamp comparator (`(a, b) => a.timestamp - b.timestamp`). -/
def tsAscLe (a b : LogEntry) : Bool := decide (a.timestamp ≤ b.timestamp)

/-- Descending-by-timestamp comparator (`(a, b) => b.timestamp - a.timestamp`). -/
def tsDescLe (a b : LogEntry) : Bool := decide (b.timestamp ≤ a.timestamp)

/-- The new entry built by `createLogEntry`: the spread
`{ ...entryData, id: uuidv4(), timestamp: Date.now() }`, which overrides any
caller-supplied id and timestamp.  The fresh uuid and the current time enter
as the `freshId` and `now` parameters. -/
def mkNewEntry (entryData : LogEntry) (now : Int) (freshId : String) : LogEntry :=
  { entryData with id := freshId, timestamp := now }

/-- `createLogEntry` from src/App.tsx (its effect on the `logs` collection):
append the new entry, then re-sort descending by timestamp. -/
def createLogEntry (logs : List LogEntry) (entryData : LogEntry) (now : Int)
    (freshId : String) : List LogEntry :=
  stableSortBy tsDescLe (logs ++ [mkNewEntry entryData now freshId])

/-- `updateLogEntry` from src/App.tsx (its effect on the `logs` collection):
replace every entry whose id matches, then re-sort descending by timestamp. -/
def updateLogEntry (logs : List LogEntry) (updatedEntryData : LogEntry) : List LogEntry :=
  stableSortBy tsDescLe
    (logs.map (fun log => if log.id = updatedEntryData.id then updatedEntryData else log))

/-- `deleteLogEntry` from src/App.tsx (its effect on the `logs` collection):
keep the entries whose id differs. -/
def deleteLogEntry (logs : List LogEntry) (id : String) : List LogEntry :=
  logs.filter (fun log => decide (log.id ≠ id))

/-- The most recent stress log:
`logs.filter(type === 'stress').sort(desc)[0]` (used by
`checkStressLogStatus` in src/App.tsx). -/
def latestStressEntry (logs : List LogEntry) : Option LogEntry :=
  (stableSortBy tsDescLe (logs.filter (fun log => decide (log.type = "stress")))).head?

/-- `checkStressLogStatus` from src/App.tsx: the `stressLoggedToday` state is
true exactly when the most recent stress entry's timestamp falls on the
current calendar day. -/
def stressLoggedTodayState (logs : List LogEntry) (now : Int) : Bool :=
  match latestStressEntry logs with
  | some e => isToday e.timestamp now
  | none => false

/-! ## Form submission payloads (src/components) -/

/-- The `StressFormData` payload (`Omit<StressLog, 'type'>`). -/
structure StressFormData where
  id : String
  timestamp : Int
  level : Int
  notes : Option String
deriving DecidableEq, Repr

/-- `{ ...data, type: 'stress' }` in `handleSaveStress`. -/
def StressFormData.toEntry (d : StressFormData) : LogEntry :=
  ⟨d.id, d.timestamp, .stress ⟨d.level, d.notes⟩⟩

/-- The `IntakeFormData` payload (`Omit<IntakeLog, 'type'>`). -/
structure IntakeFormData where
  id : String
  timestamp : Int
  item : String
  quantity : Option String
  notes : Option String
deriving DecidableEq, Repr

/-- `handleSaveStress` from src/App.tsx.  `data.id && data.timestamp` is the
JavaScript truthiness test (non-empty id and non-zero timestamp): truthy
means edit, so update; otherwise this is a creation, refused with an alert
when `stressLoggedToday` holds.  The `stressLoggedToday` component state is
passed in as `flag` (the `checkStressLogStatus` effect keeps it equal to
`stressLoggedTodayState logs now`).  Returns the new collection paired with
whether the duplicate-day alert fired. -/
def handleSaveStress (logs : List LogEntry) (data : StressFormData) (now : Int)
    (freshId : String) (flag : Bool) : List LogEntry × Bool :=
  if data.id ≠ "" ∧ data.timestamp ≠ 0 then
    (updateLogEntry logs data.toEntry, false)
  else if flag then
    (logs, true)
  else
    (createLogEntry logs data.toEntry now freshId, false)

/-- JavaScript `s.trim()` (strip leading and trailing whitespace). -/
def trimStr (s : String) : String :=
  let ws : Char → Bool := fun c => c = ' ' || c = '\t' || c = '\n' || c = '\r'
  String.mk (((s.data.dropWhile ws).reverse.dropWhile ws).reverse)

/-- `notes.trim() || undefined`: an all-whitespace string becomes `undefined`. -/
def trimOrNone (s : String) : Option String :=
  if trimStr s = "" then none else some (trimStr s)

/-- `StressForm.handleSubmit` from src/components/StressForm.tsx.
`initialData` is the entry being edited (`none` when creating);
`parsedEditedDateTime` is the result of
`parseInputTimestamp(editedDateTime)` with `NaN` embedded as `none`.
Returns the `onSave` payload, or `none` when the submit is blocked by the
invalid-date alert. -/
def StressFormHandleSubmit (initialData : Option StressFormData)
    (parsedEditedDateTime : Option Int) (level : Int) (notes : String) :
    Option StressFormData :=
  match initialData with
  | some init =>
    match parsedEditedDateTime with
    | none => none
    | some ts => some ⟨init.id, ts, level, trimOrNone notes⟩
  | none => some ⟨"", 0, level, trimOrNone notes⟩

/-- `IntakeForm.handleSubmit` from src/components/IntakeForm.tsx: an empty
(trimmed) item blocks the submit first; then, when editing, an unparseable
edited date/time blocks it. -/
def IntakeFormHandleSubmit (initialData : Option IntakeFormData)
    (parsedEditedDateTime : Option Int) (item quantity notes : String) :
    Option IntakeFormData :=
  if trimStr item = "" then none
  else
    match initialData with
    | some init =>
      match parsedEditedDateTime with
      | none => none
      | some ts => some ⟨init.id, ts, trimStr item, trimOrNone quantity, trimOrNone notes⟩
    | none => some ⟨"", 0, trimStr item, trimOrNone quantity, trimOrNone notes⟩

/-- A stress-form submit followed by the save handler: when `handleSubmit`
blocks, `onSave` is never invoked and the stored collection is untouched. -/
def stressSubmitThenSave (logs : List LogEntry) (initialData : Option StressFormData)
    (parsedEditedDateTime : Option Int) (level : Int) (notes : String) (now : Int)
    (freshId : String) (flag : Bool) : List LogEntry :=
  match StressFormHandleSubmit initialData parsedEditedDateTime level notes with
  | none => logs
  | some d => (handleSaveStress logs d now freshId flag).1

/-! ## Export (`handleExportData` in src/App.tsx) -/

/-- `handleExportData`: on an empty collection, alert "No data to export."
and create no file; otherwise serialize a copy of the collection sorted
ascending by timestamp.  Returns (exported file content if any, whether the
no-data alert fired, the stored collection afterwards — the sort operates on
the copy `[...logs]`, so the stored collection is returned unchanged). -/
def handleExportData (logs : List LogEntry) :
    Option (List LogEntry) × Bool × List LogEntry :=
  if logs.length = 0 then (none, true, logs)
  else (some (stableSortBy tsAscLe logs), false, logs)

/-! ## Lemmas: stable sort -/

theorem insertLe_perm {α : Type} (le : α → α → Bool) (a : α) (l : List α) :
    (insertLe le a l).Perm (a :: l) := by
  induction l with
  | nil => simp [insertLe]
  | cons b bs ih =>
    simp only [insertLe]
    by_cases h : le a b = true
    · simp [h]
    · simp only [h, if_false]
      exact (List.Perm.cons b ih).trans (List.Perm.swap a b bs)

theorem stableSortBy_perm {α : Type} (le : α → α → Bool) (l : List α) :
    (stableSortBy le l).Perm l := by
  induction l with
  | nil => simp [stableSortBy]
  | cons a as ih =>
    exact (insertLe_perm le a (stableSortBy le as)).trans (List.Perm.cons a ih)

theorem pairwise_insertLe {α : Type} {le : α → α → Bool}
    (htrans : ∀ a b c, le a b = true → le b c = true → le a c = true)
    (htotal : ∀ a b, le a b = true ∨ le b a = true)
    (a : α) {l : List α} (hl : l.Pairwise (fun x y => le x y = true)) :
    (insertLe le a l).Pairwise (fun x y => le x y = true) := by
  induction l with
  | nil => simp [insertLe]
  | cons b bs ih =>
    have hb : ∀ c ∈ bs, le b c = true := fun c hc => List.rel_of_pairwise_cons hl hc
    have hbs : bs.Pairwise (fun x y => le x y = true) := hl.of_cons
    simp only [insertLe]
    by_cases h : le a b = true
    · simp only [h, if_true]
      refine List.Pairwise.cons ?_ hl
      intro c hc
      rcases List.mem_cons.mp hc with rfl | hc
      · exact h
      · exact htrans a b c h (hb c hc)
    · simp only [h, if_false]
      refine List.Pairwise.cons ?_ (ih hbs)
      intro c hc
      rcases List.mem_cons.mp ((insertLe_perm le a bs).mem_iff.mp hc) with hca | hc
      · rw [hca]
        rcases htotal a b with h1 | h1
        · exact absurd h1 h
        · exact h1
      · exact hb c hc

theorem stableSortBy_pairwise {α : Type} {le : α → α → Bool}
    (htrans : ∀ a b c, le a b = true → le b c = true → le a c = true)
    (htotal : ∀ a b, le a b = true ∨ le b a = true) (l : List α) :
    (stableSortBy le l).Pairwise (fun x y => le x y = true) := by
  induction l with
  | nil => simp [stableSortBy]
  | cons a as ih => exact pairwise_insertLe htrans htotal a ih

theorem stableSortBy_mem {α : Type} (le : α → α → Bool) (l : List α) (x : α) :
    x ∈ stableSortBy le l ↔ x ∈ l :=
  (stableSortBy_perm le l).mem_iff

/-! ## Lemmas: character-list comparison -/

theorem charListLt_cons_iff {a b : Char} {as bs : List Char} :
    charListLt (a :: as) (b :: bs) = true ↔ a < b ∨ (a = b ∧ charListLt as bs = true) := by
  rw [charListLt]
  rcases lt_trichotomy a b with h | h | h
  · simp [h]
  · simp [h, lt_irrefl]
  · simp [not_lt_of_gt h, h, ne_of_gt h]

theorem charListLt_irrefl (l : List Char) : charListLt l l = false := by
  induction l with
  | nil => rfl
  | cons a as ih => simp [charListLt, ih]

theorem charListLt_trans {l1 l2 l3 : List Char} (h12 : charListLt l1 l2 = true)
    (h23 : charListLt l2 l3 = true) : charListLt l1 l3 = true := by
  induction l1 generalizing l2 l3 with
  | nil =>
    cases l2 with
    | nil => simp [charListLt] at h12
    | cons b bs =>
      cases l3 with
      | nil => simp [charListLt] at h23
      | cons c cs => rfl
  | cons a as ih =>
    cases l2 with
    | nil => simp [charListLt] at h12
    | cons b bs =>
      cases l3 with
      | nil => simp [charListLt] at h23
      | cons c cs =>
        rcases charListLt_cons_iff.mp h12 with hab | ⟨rfl, h12t⟩
        · rcases charListLt_cons_iff.mp h23 with hbc | ⟨rfl, _⟩
          · exact charListLt_cons_iff.mpr (Or.inl (lt_trans hab hbc))
          · exact charListLt_cons_iff.mpr (Or.inl hab)
        · rcases charListLt_cons_iff.mp h23 with hbc | ⟨rfl, h23t⟩
          · exact charListLt_cons_iff.mpr (Or.inl hbc)
          · exact charListLt_cons_iff.mpr (Or.inr ⟨rfl, ih h12t h23t⟩)

theorem charListLt_tri (l1 l2 : List Char) :
    charListLt l1 l2 = true ∨ l1 = l2 ∨ charListLt l2 l1 = true := by
  induction l1 generalizing l2 with
  | nil =>
    cases l2 with
    | nil => exact Or.inr (Or.inl rfl)
    | cons b bs => exact Or.inl rfl
  | cons a as ih =>
    cases l2 with
    | nil => exact Or.inr (Or.inr rfl)
    | cons b bs =>
      rcases lt_trichotomy a b with h | rfl | h
      · exact Or.inl (charListLt_cons_iff.mpr (Or.inl h))
      · rcases ih bs with h1 | rfl | h1
        · exact Or.inl (charListLt_cons_iff.mpr (Or.inr ⟨rfl, h1⟩))
        · exact Or.inr (Or.inl rfl)
        · exact Or.inr (Or.inr (charListLt_cons_iff.mpr (Or.inr ⟨rfl, h1⟩)))
      · exact Or.inr (Or.inr (charListLt_cons_iff.mpr (Or.inl h)))

theorem charListLt_asymm {l1 l2 : List Char} (h : charListLt l1 l2 = true) :
    charListLt l2 l1 = false := by
  cases hh : charListLt l2 l1
  · rfl
  · exact absurd (charListLt_irrefl l1) (by simp [charListLt_trans h hh])

theorem strLeB_total (a b : String) : strLeB a b = true ∨ strLeB b a = true := by
  unfold strLeB strLtB
  cases hh : charListLt a.data b.data
  · right
    simp [hh]
  · left
    simp [charListLt_asymm hh]

theorem strLeB_trans {a b c : String} (hab : strLeB a b = true) (hbc : strLeB b c = true) :
    strLeB a c = true := by
  unfold strLeB strLtB at *
  rw [Bool.not_eq_true'] at hab hbc ⊢
  cases hca : charListLt c.data a.data
  · rfl
  · exfalso
    rcases charListLt_tri a.data b.data with h | h | h
    · exact absurd (charListLt_trans hca h) (by simp [hbc])
    · rw [h] at hca
      exact absurd hca (by simp [hbc])
    · exact absurd h (by simp [hab])

theorem strLtB_of_strLeB_ne {a b : String} (hle : strLeB a b = true) (hne : a ≠ b) :
    strLtB a b = true := by
  unfold strLeB at hle
  rw [Bool.not_eq_true'] at hle
  cases hh : strLtB a b
  · exfalso
    apply hne
    unfold strLtB at hh hle
    rcases charListLt_tri a.data b.data with h | h | h
    · exact absurd h (by simp [hh])
    · cases a
      cases b
      exact congrArg String.mk h
    · exact absurd h (by simp [hle])
  · rfl

theorem strLtB_asymm {a b : String} (h : strLtB a b = true) : strLtB b a = false :=
  charListLt_asymm h

theorem strLtB_irrefl (a : String) : strLtB a a = false := charListLt_irrefl a.data

theorem strLtB_trans {a b c : String} (hab : strLtB a b = true) (hbc : strLtB b c = true) :
    strLtB a c = true := charListLt_trans hab hbc

/-! ## Lemmas: timestamp comparators -/

theorem tsAscLe_trans (a b c : LogEntry) (h1 : tsAscLe a b = true) (h2 : tsAscLe b c = true) :
    tsAscLe a c = true := by
  unfold tsAscLe at *
  simp only [decide_eq_true_eq] at *
  omega

theorem tsAscLe_total (a b : LogEntry) : tsAscLe a b = true ∨ tsAscLe b a = true := by
  unfold tsAscLe
  simp only [decide_eq_true_eq]
  omega

theorem tsDescLe_trans (a b c : LogEntry) (h1 : tsDescLe a b = true) (h2 : tsDescLe b c = true) :
    tsDescLe a c = true := by
  unfold tsDescLe at *
  simp only [decide_eq_true_eq] at *
  omega

theorem tsDescLe_total (a b : LogEntry) : tsDescLe a b = true ∨ tsDescLe b a = true := by
  unfold tsDescLe
  simp only [decide_eq_true_eq]
  omega

/-! ## Lemmas: the daily-bucket dictionary -/

/-- The formatted calendar date an entry is bucketed under. -/
def dateOf (e : LogEntry) : String := formatTimestampToDateString e.timestamp

/-- Association-list lookup by date key (proof helper for the `dailyData`
dictionary). -/
def alookup (d : String) : List (String × ChartDataPoint) → Option ChartDataPoint
  | [] => none
  | (k, p) :: rest => if k = d then some p else alookup d rest

/-- The dictionary's keys, in insertion order. -/
def akeys (al : List (String × ChartDataPoint)) : List String := al.map Prod.fst

/-- `buildDaily` generalized over the starting dictionary. -/
def foldDaily (acc : List (String × ChartDataPoint)) (logs : List LogEntry) :
    List (String × ChartDataPoint) :=
  logs.foldl (fun acc e => bucketUpdate (formatTimestampToDateString e.timestamp) e acc) acc

theorem buildDaily_eq_foldDaily (logs : List LogEntry) : buildDaily logs = foldDaily [] logs := rfl

theorem foldDaily_cons (acc : List (String × ChartDataPoint)) (e : LogEntry)
    (ls : List LogEntry) :
    foldDaily acc (e :: ls) = foldDaily (bucketUpdate (dateOf e) e acc) ls := rfl

/-- The entries of a list that fall on calendar date `d`. -/
def entriesOn (d : String) (ls : List LogEntry) : List LogEntry :=
  ls.filter (fun e => decide (dateOf e = d))

theorem entriesOn_nil (d : String) : entriesOn d [] = [] := rfl

theorem entriesOn_cons_pos {d : String} {e : LogEntry} (ls : List LogEntry)
    (h : dateOf e = d) : entriesOn d (e :: ls) = e :: entriesOn d ls := by
  simp [entriesOn, List.filter_cons, h]

theorem entriesOn_cons_neg {d : String} {e : LogEntry} (ls : List LogEntry)
    (h : dateOf e ≠ d) : entriesOn d (e :: ls) = entriesOn d ls := by
  simp [entriesOn, List.filter_cons, h]

theorem akeys_nil : akeys [] = [] := rfl

theorem akeys_cons (k : String) (p : ChartDataPoint) (rest : List (String × ChartDataPoint)) :
    akeys ((k, p) :: rest) = k :: akeys rest := rfl

theorem alookup_cons (d k : String) (p : ChartDataPoint)
    (rest : List (String × ChartDataPoint)) :
    alookup d ((k, p) :: rest) = if k = d then some p else alookup d rest := rfl

theorem updatePoint_date (p : ChartDataPoint) (e : LogEntry) :
    (updatePoint p e).date = p.date := by
  obtain ⟨eid, ets, dat⟩ := e
  cases dat with
  | symptom s =>
    obtain ⟨bm, cs, bsv, ug, nt⟩ := s
    cases cs <;> cases bsv <;> rfl
  | intake i => rfl
  | stress s => rfl

theorem alookup_bucketUpdate_self (ds : String) (e : LogEntry)
    (al : List (String × ChartDataPoint)) :
    alookup ds (bucketUpdate ds e al) =
      some (updatePoint ((alookup ds al).getD (emptyPoint ds)) e) := by
  induction al with
  | nil => simp [bucketUpdate, alookup]
  | cons x rest ih =>
    obtain ⟨d, p⟩ := x
    simp only [bucketUpdate]
    by_cases h : d = ds
    · subst h
      simp [alookup_cons]
    · rw [if_neg h, alookup_cons, if_neg h, ih, alookup_cons, if_neg h]

theorem alookup_bucketUpdate_ne {d ds : String} (hne : d ≠ ds) (e : LogEntry)
    (al : List (String × ChartDataPoint)) :
    alookup d (bucketUpdate ds e al) = alookup d al := by
  induction al with
  | nil =>
    simp only [bucketUpdate, alookup]
    rw [if_neg (Ne.symm hne)]
  | cons x rest ih =>
    obtain ⟨k, p⟩ := x
    simp only [bucketUpdate]
    by_cases h : k = ds
    · have hkd : k ≠ d := by
        rw [h]
        exact Ne.symm hne
      rw [if_pos h, alookup_cons, if_neg hkd, alookup_cons, if_neg hkd]
    · by_cases h2 : k = d
      · rw [if_neg h, alookup_cons, if_pos h2, alookup_cons, if_pos h2]
      · rw [if_neg h, alookup_cons, if_neg h2, alookup_cons, if_neg h2, ih]

theorem akeys_bucketUpdate (ds : String) (e : LogEntry) (al : List (String × ChartDataPoint)) :
    akeys (bucketUpdate ds e al) =
      if ds ∈ akeys al then akeys al else akeys al ++ [ds] := by
  induction al with
  | nil => simp [bucketUpdate, akeys]
  | cons x rest ih =>
    obtain ⟨k, p⟩ := x
    simp only [bucketUpdate]
    by_cases h : k = ds
    · subst h
      simp [akeys_cons]
    · rw [if_neg h, akeys_cons, akeys_cons, ih]
      have hne2 : ds ≠ k := fun h2 => h h2.symm
      by_cases hmem : ds ∈ akeys rest
      · rw [if_pos hmem, if_pos (List.mem_cons_of_mem k hmem)]
      · have hnotin : ds ∉ k :: akeys rest := by
          intro hc
          rcases List.mem_cons.mp hc with h3 | h3
          · exact hne2 h3
          · exact hmem h3
        rw [if_neg hmem, if_neg hnotin, List.cons_append]

theorem akeys_bucketUpdate_nodup {ds : String} {e : LogEntry}
    {al : List (String × ChartDataPoint)} (h : (akeys al).Nodup) :
    (akeys (bucketUpdate ds e al)).Nodup := by
  rw [akeys_bucketUpdate]
  by_cases hmem : ds ∈ akeys al
  · rwa [if_pos hmem]
  · rw [if_neg hmem]
    simp [List.nodup_append, h, hmem]

theorem bucketUpdate_snd_date {ds : String} {e : LogEntry}
    {al : List (String × ChartDataPoint)} (h : ∀ x ∈ al, (Prod.snd x).date = x.1) :
    ∀ x ∈ bucketUpdate ds e al, (Prod.snd x).date = x.1 := by
  induction al with
  | nil =>
    intro x hx
    simp only [bucketUpdate, List.mem_singleton] at hx
    subst hx
    simp [updatePoint_date, emptyPoint]
  | cons y rest ih =>
    obtain ⟨k, p⟩ := y
    intro x hx
    simp only [bucketUpdate] at hx
    by_cases hk : k = ds
    · subst hk
      rw [if_pos rfl] at hx
      rcases List.mem_cons.mp hx with rfl | hx
      · have := h (k, p) (List.mem_cons_self _ _)
        simpa [updatePoint_date] using this
      · exact h x (List.mem_cons_of_mem _ hx)
    · rw [if_neg hk] at hx
      rcases List.mem_cons.mp hx with rfl | hx
      · exact h (k, p) (List.mem_cons_self _ _)
      · exact ih (fun y hy => h y (List.mem_cons_of_mem _ hy)) x hx

theorem foldDaily_snd_date (logs : List LogEntry) :
    ∀ (acc : List (String × ChartDataPoint)), (∀ x ∈ acc, (Prod.snd x).date = x.1) →
    ∀ x ∈ foldDaily acc logs, (Prod.snd x).date = x.1 := by
  induction logs with
  | nil => intro acc h; exact h
  | cons e ls ih =>
    intro acc h
    rw [foldDaily_cons]
    exact ih _ (bucketUpdate_snd_date h)

theorem foldDaily_akeys_nodup (logs : List LogEntry) :
    ∀ (acc : List (String × ChartDataPoint)), (akeys acc).Nodup →
    (akeys (foldDaily acc logs)).Nodup := by
  induction logs with
  | nil => intro acc h; exact h
  | cons e ls ih =>
    intro acc h
    rw [foldDaily_cons]
    exact ih _ (akeys_bucketUpdate_nodup h)

theorem alookup_foldDaily_some {d : String} (logs : List LogEntry) :
    ∀ (acc : List (String × ChartDataPoint)) (p : ChartDataPoint), alookup d acc = some p →
    alookup d (foldDaily acc logs) = some ((entriesOn d logs).foldl updatePoint p) := by
  induction logs with
  | nil =>
    intro acc p h
    simpa [foldDaily, entriesOn] using h
  | cons e ls ih =>
    intro acc p h
    rw [foldDaily_cons]
    by_cases hde : dateOf e = d
    · have h2 : alookup d (bucketUpdate (dateOf e) e acc) = some (updatePoint p e) := by
        rw [hde, alookup_bucketUpdate_self, h]
        rfl
      rw [ih _ _ h2, entriesOn_cons_pos ls hde, List.foldl_cons]
    · have hne : d ≠ dateOf e := fun hx => hde hx.symm
      have h2 : alookup d (bucketUpdate (dateOf e) e acc) = some p := by
        rw [alookup_bucketUpdate_ne hne, h]
      rw [ih _ _ h2, entriesOn_cons_neg ls hde]

theorem alookup_foldDaily_none {d : String} (logs : List LogEntry) :
    ∀ (acc : List (String × ChartDataPoint)), alookup d acc = none →
    alookup d (foldDaily acc logs) =
      if entriesOn d logs = [] then none
      else some ((entriesOn d logs).foldl updatePoint (emptyPoint d)) := by
  induction logs with
  | nil =>
    intro acc h
    simpa [foldDaily, entriesOn] using h
  | cons e ls ih =>
    intro acc h
    rw [foldDaily_cons]
    by_cases hde : dateOf e = d
    · have h2 : alookup d (bucketUpdate (dateOf e) e acc) =
          some (updatePoint (emptyPoint d) e) := by
        rw [hde, alookup_bucketUpdate_self, h]
        rfl
      rw [alookup_foldDaily_some ls _ _ h2, entriesOn_cons_pos ls hde,
        if_neg (List.cons_ne_nil e (entriesOn d ls)), List.foldl_cons]
    · have hne : d ≠ dateOf e := fun hx => hde hx.symm
      have h2 : alookup d (bucketUpdate (dateOf e) e acc) = none := by
        rw [alookup_bucketUpdate_ne hne, h]
      rw [ih _ h2, entriesOn_cons_neg ls hde]

theorem alookup_eq_none_iff {d : String} {al : List (String × ChartDataPoint)} :
    alookup d al = none ↔ d ∉ akeys al := by
  induction al with
  | nil => simp [alookup, akeys]
  | cons y rest ih =>
    obtain ⟨k, p⟩ := y
    rw [alookup_cons, akeys_cons]
    by_cases h : k = d
    · subst h
      simp
    · rw [if_neg h, ih]
      constructor
      · intro hn hc
        rcases List.mem_cons.mp hc with h2 | h2
        · exact h h2.symm
        · exact hn h2
      · intro hn h2
        exact hn (List.mem_cons_of_mem _ h2)

theorem alookup_of_mem_nodup {al : List (String × ChartDataPoint)}
    (hnd : (akeys al).Nodup) {x : String × ChartDataPoint} (hx : x ∈ al) :
    alookup x.1 al = some x.2 := by
  induction al with
  | nil => simp at hx
  | cons y rest ih =>
    obtain ⟨k, p⟩ := y
    rw [akeys_cons, List.nodup_cons] at hnd
    rcases List.mem_cons.mp hx with rfl | hx
    · simp [alookup_cons]
    · have hk : k ≠ x.1 := by
        intro h
        apply hnd.1
        rw [h]
        exact List.mem_map_of_mem Prod.fst hx
      rw [alookup_cons, if_neg hk]
      exact ih hnd.2 hx

/-! ## Lemmas: channel folds -/

/-- The `crampsSeverity` a log entry contributes (symptom entries only). -/
def crampsSevOf (e : LogEntry) : Option Int :=
  match e.data with
  | .symptom s => s.crampsSeverity
  | _ => none

/-- The `bloatingSeverity` a log entry contributes (symptom entries only). -/
def bloatingSevOf (e : LogEntry) : Option Int :=
  match e.data with
  | .symptom s => s.bloatingSeverity
  | _ => none

/-- The stress `level` a log entry contributes (stress entries only). -/
def stressLevelOf (e : LogEntry) : Option Int :=
  match e.data with
  | .stress s => some s.level
  | _ => none

/-- Defined cramps severities of a list of entries, in order. -/
def crampsVals (ls : List LogEntry) : List Int := ls.filterMap crampsSevOf

/-- Defined bloating severities of a list of entries, in order. -/
def bloatingVals (ls : List LogEntry) : List Int := ls.filterMap bloatingSevOf

/-- Stress levels of a list of entries, in order. -/
def stressVals (ls : List LogEntry) : List Int := ls.filterMap stressLevelOf

/-- The zero-seeded running maximum of the aggregation:
`some (max (channel ?? 0) c)` for each contribution `c`. -/
def foldMax0 (o : Option Int) (vs : List Int) : Option Int :=
  vs.foldl (fun o c => some (max (o.getD 0) c)) o

/-- Last-write-wins accumulator for the stress channel. -/
def lastVal (o : Option Int) (vs : List Int) : Option Int :=
  vs.foldl (fun _ v => some v) o

theorem updatePoint_cramps (p : ChartDataPoint) (e : LogEntry) :
    (updatePoint p e).cramps =
      match crampsSevOf e with
      | some c => some (max (p.cramps.getD 0) c)
      | none => p.cramps := by
  obtain ⟨eid, ets, dat⟩ := e
  cases dat with
  | symptom s =>
    obtain ⟨bm, cs, bsv, ug, nt⟩ := s
    cases cs <;> cases bsv <;> rfl
  | intake i => rfl
  | stress s => rfl

theorem updatePoint_bloating (p : ChartDataPoint) (e : LogEntry) :
    (updatePoint p e).bloating =
      match bloatingSevOf e with
      | some b => some (max (p.bloating.getD 0) b)
      | none => p.bloating := by
  obtain ⟨eid, ets, dat⟩ := e
  cases dat with
  | symptom s =>
    obtain ⟨bm, cs, bsv, ug, nt⟩ := s
    cases cs <;> cases bsv <;> rfl
  | intake i => rfl
  | stress s => rfl

theorem updatePoint_stress (p : ChartDataPoint) (e : LogEntry) :
    (updatePoint p e).stress =
      match stressLevelOf e with
      | some v => some v
      | none => p.stress := by
  obtain ⟨eid, ets, dat⟩ := e
  cases dat with
  | symptom s =>
    obtain ⟨bm, cs, bsv, ug, nt⟩ := s
    cases cs <;> cases bsv <;> rfl
  | intake i => rfl
  | stress s => rfl

theorem foldl_updatePoint_cramps (ls : List LogEntry) :
    ∀ (p : ChartDataPoint), (ls.foldl updatePoint p).cramps = foldMax0 p.cramps (crampsVals ls) := by
  induction ls with
  | nil => intro p; rfl
  | cons e ls ih =>
    intro p
    rw [List.foldl_cons, ih]
    cases hc : crampsSevOf e with
    | none =>
      have h1 : (updatePoint p e).cramps = p.cramps := by
        rw [updatePoint_cramps, hc]
      have h2 : crampsVals (e :: ls) = crampsVals ls := by
        simp [crampsVals, List.filterMap_cons, hc]
      rw [h1, h2]
    | some c =>
      have h1 : (updatePoint p e).cramps = some (max (p.cramps.getD 0) c) := by
        rw [updatePoint_cramps, hc]
      have h2 : crampsVals (e :: ls) = c :: crampsVals ls := by
        simp [crampsVals, List.filterMap_cons, hc]
      rw [h1, h2]
      rfl

theorem foldl_updatePoint_bloating (ls : List LogEntry) :
    ∀ (p : ChartDataPoint),
    (ls.foldl updatePoint p).bloating = foldMax0 p.bloating (bloatingVals ls) := by
  induction ls with
  | nil => intro p; rfl
  | cons e ls ih =>
    intro p
    rw [List.foldl_cons, ih]
    cases hc : bloatingSevOf e with
    | none =>
      have h1 : (updatePoint p e).bloating = p.bloating := by
        rw [updatePoint_bloating, hc]
      have h2 : bloatingVals (e :: ls) = bloatingVals ls := by
        simp [bloatingVals, List.filterMap_cons, hc]
      rw [h1, h2]
    | some c =>
      have h1 : (updatePoint p e).bloating = some (max (p.bloating.getD 0) c) := by
        rw [updatePoint_bloating, hc]
      have h2 : bloatingVals (e :: ls) = c :: bloatingVals ls := by
        simp [bloatingVals, List.filterMap_cons, hc]
      rw [h1, h2]
      rfl

theorem foldl_updatePoint_stress (ls : List LogEntry) :
    ∀ (p : ChartDataPoint), (ls.foldl updatePoint p).stress = lastVal p.stress (stressVals ls) := by
  induction ls with
  | nil => intro p; rfl
  | cons e ls ih =>
    intro p
    rw [List.foldl_cons, ih]
    cases hc : stressLevelOf e with
    | none =>
      have h1 : (updatePoint p e).stress = p.stress := by
        rw [updatePoint_stress, hc]
      have h2 : stressVals (e :: ls) = stressVals ls := by
        simp [stressVals, List.filterMap_cons, hc]
      rw [h1, h2]
    | some v =>
      have h1 : (updatePoint p e).stress = some v := by
        rw [updatePoint_stress, hc]
      have h2 : stressVals (e :: ls) = v :: stressVals ls := by
        simp [stressVals, List.filterMap_cons, hc]
      rw [h1, h2]
      rfl

theorem foldMax0_some (vs : List Int) : ∀ (a : Int), foldMax0 (some a) vs = some (vs.foldl max a) := by
  induction vs with
  | nil => intro a; rfl
  | cons v vs ih =>
    intro a
    show foldMax0 (some (max a v)) vs = some (vs.foldl max (max a v))
    exact ih (max a v)

theorem foldMax0_none_eq_max? {vs : List Int} (hv : ∀ v ∈ vs, 0 ≤ v) :
    foldMax0 none vs = vs.max? := by
  cases vs with
  | nil => rfl
  | cons v vs =>
    have h0 : max (0 : Int) v = v := max_eq_right (hv v (List.mem_cons_self _ _))
    show foldMax0 (some (max 0 v)) vs = (v :: vs).max?
    rw [foldMax0_some, h0]
    rfl

theorem foldMax0_nonneg {vs : List Int} :
    ∀ {o : Option Int}, (∀ a, o = some a → 0 ≤ a) →
    ∀ {v : Int}, foldMax0 o vs = some v → 0 ≤ v := by
  induction vs with
  | nil =>
    intro o ho v hfold
    exact ho v hfold
  | cons c vs ih =>
    intro o ho v hfold
    have hstep : ∀ a, some (max (o.getD 0) c) = some a → 0 ≤ a := by
      intro a ha
      have ha2 : max (o.getD 0) c = a := by injection ha
      have h0 : 0 ≤ o.getD 0 := by
        cases o with
        | none => simp
        | some b => exact ho b rfl
      rw [← ha2]
      exact le_trans h0 (le_max_left _ _)
    exact ih hstep hfold

/-- The maximum accumulator; `List.max?` is its left fold. -/
def maxAcc (o : Option Int) (v : Int) : Option Int :=
  match o with
  | none => some v
  | some a => some (max a v)

theorem foldl_maxAcc_some (l : List Int) : ∀ (a : Int), l.foldl maxAcc (some a) = some (l.foldl max a) := by
  induction l with
  | nil => intro a; rfl
  | cons v vs ih => intro a; exact ih (max a v)

theorem max?_eq_foldl_maxAcc (l : List Int) : l.max? = l.foldl maxAcc none := by
  cases l with
  | nil => rfl
  | cons a l =>
    show some (l.foldl max a) = List.foldl maxAcc (maxAcc none a) l
    rw [show maxAcc none a = some a from rfl, foldl_maxAcc_some]

theorem maxAcc_comm (o : Option Int) (u v : Int) : maxAcc (maxAcc o u) v = maxAcc (maxAcc o v) u := by
  cases o with
  | none => simp [maxAcc, max_comm]
  | some a => simp [maxAcc, max_assoc, max_comm u v]

theorem foldl_maxAcc_perm {l1 l2 : List Int} (h : l1.Perm l2) :
    ∀ (o : Option Int), l1.foldl maxAcc o = l2.foldl maxAcc o := by
  induction h with
  | nil => intro o; rfl
  | cons x _ ih => intro o; rw [List.foldl_cons, List.foldl_cons, ih]
  | swap x y l => intro o; rw [List.foldl_cons, List.foldl_cons, List.foldl_cons, List.foldl_cons, maxAcc_comm]
  | trans _ _ ih1 ih2 => intro o; rw [ih1, ih2]

theorem max?_perm {l1 l2 : List Int} (h : l1.Perm l2) : l1.max? = l2.max? := by
  rw [max?_eq_foldl_maxAcc, max?_eq_foldl_maxAcc, foldl_maxAcc_perm h]

theorem lastVal_or (vs : List Int) : ∀ (o : Option Int), lastVal o vs = vs.getLast?.or o := by
  induction vs with
  | nil => intro o; rfl
  | cons v vs ih =>
    intro o
    have h1 : lastVal o (v :: vs) = lastVal (some v) vs := rfl
    rw [h1, ih (some v)]
    cases hvs : vs with
    | nil => rfl
    | cons w ws =>
      rw [List.getLast?_cons_cons]
      cases hlast : (w :: ws).getLast? with
      | none => simp [List.getLast?_cons_cons] at hlast
      | some x => rfl

/-! ## Structure of the aggregation output -/

/-- The timestamp-ascending processing order of the aggregation (the
`[...logs].sort((a, b) => a.timestamp - b.timestamp)` copy). -/
def sortedLogsOf (logs : List LogEntry) : List LogEntry := stableSortBy tsAscLe logs

theorem processChartData_unfold (logs : List LogEntry) :
    processChartData logs =
      stableSortBy (fun a b => strLeB a.date b.date)
        ((buildDaily (sortedLogsOf logs)).map Prod.snd) := rfl

theorem entriesOn_eq_nil_iff {d : String} {ls : List LogEntry} :
    entriesOn d ls = [] ↔ ∀ e ∈ ls, dateOf e ≠ d := by
  unfold entriesOn
  rw [List.filter_eq_nil_iff]
  simp

theorem buildDaily_snd_date (logs : List LogEntry) :
    ∀ x ∈ buildDaily logs, (Prod.snd x).date = x.1 := by
  rw [buildDaily_eq_foldDaily]
  exact foldDaily_snd_date logs [] (by intro y hy; simp at hy)

theorem buildDaily_akeys_nodup (logs : List LogEntry) :
    (akeys (buildDaily logs)).Nodup := by
  rw [buildDaily_eq_foldDaily]
  exact foldDaily_akeys_nodup logs [] (by simp [akeys])

theorem buildDaily_map_date (logs : List LogEntry) :
    ((buildDaily logs).map Prod.snd).map (fun p => p.date) = akeys (buildDaily logs) := by
  rw [List.map_map]
  exact List.map_congr_left (buildDaily_snd_date logs)

/-- Every output point is the fold of `updatePoint` over its date's entries
(in processing order), starting from the fresh bucket; and its date does
occur among the entries. -/
theorem processChartData_point_char {logs : List LogEntry} {p : ChartDataPoint}
    (hp : p ∈ processChartData logs) :
    entriesOn p.date (sortedLogsOf logs) ≠ [] ∧
    p = (entriesOn p.date (sortedLogsOf logs)).foldl updatePoint (emptyPoint p.date) := by
  rw [processChartData_unfold] at hp
  rw [stableSortBy_mem] at hp
  obtain ⟨x, hxmem, hxp⟩ := List.mem_map.mp hp
  have hdate : x.2.date = x.1 := buildDaily_snd_date (sortedLogsOf logs) x hxmem
  have hnd := buildDaily_akeys_nodup (sortedLogsOf logs)
  have hlook : alookup x.1 (buildDaily (sortedLogsOf logs)) = some x.2 :=
    alookup_of_mem_nodup hnd hxmem
  have hkey : x.1 = p.date := by
    rw [← hxp, ← hdate]
  rw [hkey] at hlook
  rw [buildDaily_eq_foldDaily] at hlook
  rw [alookup_foldDaily_none (sortedLogsOf logs) [] rfl] at hlook
  by_cases hemp : entriesOn p.date (sortedLogsOf logs) = []
  · rw [if_pos hemp] at hlook
    exact absurd hlook (by simp)
  · rw [if_neg hemp] at hlook
    refine ⟨hemp, ?_⟩
    have h3 := Option.some.inj hlook
    exact hxp.symm.trans h3.symm

/-- A date occurs among the output points exactly when some input entry
falls on it. -/
theorem processChartData_date_mem (logs : List LogEntry) (d : String) :
    d ∈ (processChartData logs).map (fun p => p.date) ↔ ∃ e ∈ logs, dateOf e = d := by
  constructor
  · intro hd
    obtain ⟨p, hp, hpd⟩ := List.mem_map.mp hd
    obtain ⟨hne, _⟩ := processChartData_point_char hp
    rw [hpd] at hne
    have : ¬ ∀ e ∈ sortedLogsOf logs, dateOf e ≠ d := fun hc =>
      hne (entriesOn_eq_nil_iff.mpr hc)
    push_neg at this
    obtain ⟨e, he, hed⟩ := this
    exact ⟨e, (stableSortBy_mem tsAscLe logs e).mp he, hed⟩
  · intro ⟨e, he, hed⟩
    have hes : e ∈ sortedLogsOf logs := (stableSortBy_mem tsAscLe logs e).mpr he
    have hne : entriesOn d (sortedLogsOf logs) ≠ [] := by
      intro hc
      exact entriesOn_eq_nil_iff.mp hc e hes hed
    have hlook : alookup d (buildDaily (sortedLogsOf logs)) =
        some ((entriesOn d (sortedLogsOf logs)).foldl updatePoint (emptyPoint d)) := by
      rw [buildDaily_eq_foldDaily, alookup_foldDaily_none (sortedLogsOf logs) [] rfl,
        if_neg hne]
    have hkeys : d ∈ akeys (buildDaily (sortedLogsOf logs)) := by
      by_contra hc
      rw [← alookup_eq_none_iff] at hc
      rw [hc] at hlook
      exact absurd hlook (by simp)
    rw [processChartData_unfold]
    have hperm := (stableSortBy_perm (fun a b => strLeB a.date b.date)
      ((buildDaily (sortedLogsOf logs)).map Prod.snd)).map (fun p => p.date)
    rw [hperm.mem_iff, buildDaily_map_date]
    exact hkeys

/-- The dates of the output points are distinct. -/
theorem processChartData_dates_nodup (logs : List LogEntry) :
    ((processChartData logs).map (fun p => p.date)).Nodup := by
  rw [processChartData_unfold]
  have hperm := (stableSortBy_perm (fun a b => strLeB a.date b.date)
    ((buildDaily (sortedLogsOf logs)).map Prod.snd)).map (fun p => p.date)
  refine hperm.symm.nodup ?_
  rw [buildDaily_map_date]
  exact buildDaily_akeys_nodup (sortedLogsOf logs)

/-- The output points are sorted by date string: weakly by `strLeB`, hence
(dates being distinct) strictly by `strLtB`. -/
theorem processChartData_sorted (logs : List LogEntry) :
    (processChartData logs).Pairwise (fun a b => strLtB a.date b.date = true) := by
  have hle : (processChartData logs).Pairwise (fun a b => strLeB a.date b.date = true) := by
    rw [processChartData_unfold]
    exact @stableSortBy_pairwise ChartDataPoint (fun a b => strLeB a.date b.date)
      (fun a b c hab hbc => strLeB_trans hab hbc)
      (fun a b => strLeB_total a.date b.date) _
  have hnd := processChartData_dates_nodup logs
  have hnd2 : (processChartData logs).Pairwise (fun a b => a.date ≠ b.date) :=
    List.pairwise_map.mp hnd
  exact (hle.and hnd2).imp (fun h => strLtB_of_strLeB_ne h.1 h.2)

/-! ## Per-channel values of a date -/

/-- The cramps severities contributed to date `d` by a collection, in
collection order. -/
def crampsValuesOn (logs : List LogEntry) (d : String) : List Int :=
  logs.filterMap (fun e => if dateOf e = d then crampsSevOf e else none)

/-- The bloating severities contributed to date `d` by a collection. -/
def bloatingValuesOn (logs : List LogEntry) (d : String) : List Int :=
  logs.filterMap (fun e => if dateOf e = d then bloatingSevOf e else none)

/-- The stress levels contributed to date `d` by a collection. -/
def stressLevelsOn (logs : List LogEntry) (d : String) : List Int :=
  logs.filterMap (fun e => if dateOf e = d then stressLevelOf e else none)

theorem crampsVals_entriesOn (d : String) (ls : List LogEntry) :
    crampsVals (entriesOn d ls) = crampsValuesOn ls d := by
  unfold crampsVals entriesOn crampsValuesOn
  rw [List.filterMap_filter]
  simp only [decide_eq_true_eq]

theorem bloatingVals_entriesOn (d : String) (ls : List LogEntry) :
    bloatingVals (entriesOn d ls) = bloatingValuesOn ls d := by
  unfold bloatingVals entriesOn bloatingValuesOn
  rw [List.filterMap_filter]
  simp only [decide_eq_true_eq]

theorem stressVals_entriesOn (d : String) (ls : List LogEntry) :
    stressVals (entriesOn d ls) = stressLevelsOn ls d := by
  unfold stressVals entriesOn stressLevelsOn
  rw [List.filterMap_filter]
  simp only [decide_eq_true_eq]

theorem mem_crampsValuesOn {logs : List LogEntry} {d : String} {v : Int}
    (hv : v ∈ crampsValuesOn logs d) : ∃ e ∈ logs, crampsSevOf e = some v := by
  obtain ⟨e, he, hfe⟩ := List.mem_filterMap.mp hv
  by_cases hd : dateOf e = d
  · rw [if_pos hd] at hfe
    exact ⟨e, he, hfe⟩
  · rw [if_neg hd] at hfe
    exact absurd hfe (by simp)

theorem mem_bloatingValuesOn {logs : List LogEntry} {d : String} {v : Int}
    (hv : v ∈ bloatingValuesOn logs d) : ∃ e ∈ logs, bloatingSevOf e = some v := by
  obtain ⟨e, he, hfe⟩ := List.mem_filterMap.mp hv
  by_cases hd : dateOf e = d
  · rw [if_pos hd] at hfe
    exact ⟨e, he, hfe⟩
  · rw [if_neg hd] at hfe
    exact absurd hfe (by simp)

/-- The cramps channel of an output point is the maximum of its date's
defined cramps severities, provided they are all nonnegative. -/
theorem processChartData_cramps {logs : List LogEntry}
    (hrange : ∀ e ∈ logs, ∀ v, crampsSevOf e = some v → 0 ≤ v) :
    ∀ p ∈ processChartData logs, p.cramps = (crampsValuesOn logs p.date).max? := by
  intro p hp
  obtain ⟨-, hchar⟩ := processChartData_point_char hp
  have hperm : (sortedLogsOf logs).Perm logs := stableSortBy_perm tsAscLe logs
  have hnn : ∀ v ∈ crampsValuesOn (sortedLogsOf logs) p.date, 0 ≤ v := by
    intro v hv
    obtain ⟨e, he, hce⟩ := mem_crampsValuesOn hv
    exact hrange e (hperm.mem_iff.mp he) v hce
  calc p.cramps
      = ((entriesOn p.date (sortedLogsOf logs)).foldl updatePoint
          (emptyPoint p.date)).cramps := by rw [← hchar]
    _ = foldMax0 none (crampsVals (entriesOn p.date (sortedLogsOf logs))) :=
        foldl_updatePoint_cramps _ _
    _ = foldMax0 none (crampsValuesOn (sortedLogsOf logs) p.date) := by
        rw [crampsVals_entriesOn]
    _ = (crampsValuesOn (sortedLogsOf logs) p.date).max? := foldMax0_none_eq_max? hnn
    _ = (crampsValuesOn logs p.date).max? := max?_perm (hperm.filterMap _)

/-- The bloating channel of an output point is the maximum of its date's
defined bloating severities, provided they are all nonnegative. -/
theorem processChartData_bloating {logs : List LogEntry}
    (hrange : ∀ e ∈ logs, ∀ v, bloatingSevOf e = some v → 0 ≤ v) :
    ∀ p ∈ processChartData logs, p.bloating = (bloatingValuesOn logs p.date).max? := by
  intro p hp
  obtain ⟨-, hchar⟩ := processChartData_point_char hp
  have hperm : (sortedLogsOf logs).Perm logs := stableSortBy_perm tsAscLe logs
  have hnn : ∀ v ∈ bloatingValuesOn (sortedLogsOf logs) p.date, 0 ≤ v := by
    intro v hv
    obtain ⟨e, he, hce⟩ := mem_bloatingValuesOn hv
    exact hrange e (hperm.mem_iff.mp he) v hce
  calc p.bloating
      = ((entriesOn p.date (sortedLogsOf logs)).foldl updatePoint
          (emptyPoint p.date)).bloating := by rw [← hchar]
    _ = foldMax0 none (bloatingVals (entriesOn p.date (sortedLogsOf logs))) :=
        foldl_updatePoint_bloating _ _
    _ = foldMax0 none (bloatingValuesOn (sortedLogsOf logs) p.date) := by
        rw [bloatingVals_entriesOn]
    _ = (bloatingValuesOn (sortedLogsOf logs) p.date).max? := foldMax0_none_eq_max? hnn
    _ = (bloatingValuesOn logs p.date).max? := max?_perm (hperm.filterMap _)

/-- The stress channel of an output point is the level of the last stress
entry of its date in timestamp-ascending processing order. -/
theorem processChartData_stress (logs : List LogEntry) :
    ∀ p ∈ processChartData logs,
      p.stress = (stressLevelsOn (sortedLogsOf logs) p.date).getLast? := by
  intro p hp
  obtain ⟨-, hchar⟩ := processChartData_point_char hp
  calc p.stress
      = ((entriesOn p.date (sortedLogsOf logs)).foldl updatePoint
          (emptyPoint p.date)).stress := by rw [← hchar]
    _ = lastVal none (stressVals (entriesOn p.date (sortedLogsOf logs))) :=
        foldl_updatePoint_stress _ _
    _ = (stressVals (entriesOn p.date (sortedLogsOf logs))).getLast? := by
        rw [lastVal_or, Option.or_none]
    _ = (stressLevelsOn (sortedLogsOf logs) p.date).getLast? := by
        rw [stressVals_entriesOn]

/-- The spec example: two symptom entries on 2024-01-01 (cramps 3 and 5) and
a stress entry (level 2) on 2024-01-02 (days 19723 and 19724 since epoch). -/
def exampleLogs : List LogEntry :=
  [ ⟨"e1", 19723 * 86400000, .symptom ⟨none, some 3, none, none, none⟩⟩,
    ⟨"e2", 19723 * 86400000 + 1000, .symptom ⟨none, some 5, none, none, none⟩⟩,
    ⟨"e3", 19724 * 86400000, .stress ⟨2, none⟩⟩ ]

/-! ## Claim C1 -/

/-- C1: for collections whose defined cramps and bloating severities are
integers in 0..5, each output point's `cramps` (resp. `bloating`) channel is
the maximum of the defined severities among its date's entries — `none`
exactly when no entry of the date defines the field, so a recorded severity
of 0 yields `some 0`, distinguishable from `none`; and the spec's example
input aggregates to exactly the stated two points. -/
theorem claim_c1_daily_maxima (logs : List LogEntry)
    (hrange : ∀ e ∈ logs, (∀ v, crampsSevOf e = some v → 0 ≤ v ∧ v ≤ 5) ∧
                          (∀ v, bloatingSevOf e = some v → 0 ≤ v ∧ v ≤ 5)) :
    (∀ p ∈ processChartData logs,
        p.cramps = (crampsValuesOn logs p.date).max? ∧
        p.bloating = (bloatingValuesOn logs p.date).max?) ∧
    processChartData exampleLogs =
      [⟨"2024-01-01", some 5, none, none⟩, ⟨"2024-01-02", none, none, some 2⟩] := by
  constructor
  · intro p hp
    exact ⟨processChartData_cramps (fun e he v hv => ((hrange e he).1 v hv).1) p hp,
           processChartData_bloating (fun e he v hv => ((hrange e he).2 v hv).1) p hp⟩
  · decide

theorem claim_c1_daily_maxima_witness :
    (⟨"2024-01-01", some 5, none, none⟩ : ChartDataPoint).cramps =
      (crampsValuesOn exampleLogs "2024-01-01").max? ∧
    (⟨"2024-01-02", none, none, some 2⟩ : ChartDataPoint).cramps =
      (crampsValuesOn exampleLogs "2024-01-02").max? := by
  have hrange : ∀ e ∈ exampleLogs, (∀ v, crampsSevOf e = some v → 0 ≤ v ∧ v ≤ 5) ∧
      (∀ v, bloatingSevOf e = some v → 0 ≤ v ∧ v ≤ 5) := by
    intro e he
    fin_cases he <;> refine ⟨fun v hv => ?_, fun v hv => ?_⟩ <;>
      simp [crampsSevOf, bloatingSevOf] at hv <;> omega
  have h := claim_c1_daily_maxima exampleLogs hrange
  exact ⟨(h.1 ⟨"2024-01-01", some 5, none, none⟩ (by decide)).1,
         (h.1 ⟨"2024-01-02", none, none, some 2⟩ (by decide)).1⟩

/-! ## Claim C9 -/

/-- C9: for every date in the aggregation output, the stress channel is the
level of the last stress entry of that date in timestamp-ascending
processing order (last-write-wins per date bucket); with a single stress
entry per date this is that entry's level. -/
theorem claim_c9_stress_last_write_wins (logs : List LogEntry) :
    ∀ p ∈ processChartData logs,
      p.stress = (stressLevelsOn (sortedLogsOf logs) p.date).getLast? :=
  processChartData_stress logs

/-- Two same-day stress entries; the later one (level 4) wins. -/
def duplicateStressLogs : List LogEntry :=
  [ ⟨"s1", 19723 * 86400000, .stress ⟨1, none⟩⟩,
    ⟨"s2", 19723 * 86400000 + 5, .stress ⟨4, none⟩⟩ ]

theorem claim_c9_stress_last_write_wins_witness :
    (⟨"2024-01-01", none, none, some 4⟩ : ChartDataPoint).stress =
      (stressLevelsOn (sortedLogsOf duplicateStressLogs) "2024-01-01").getLast? :=
  claim_c9_stress_last_write_wins duplicateStressLogs
    ⟨"2024-01-01", none, none, some 4⟩ (by decide)

/-! ## Claim C10 -/

/-- C10: for every input collection — including out-of-range severities —
every defined cramps or bloating value in the aggregation output is at least
0: the running maximum is seeded with 0 when the channel is still null, so a
negative defined severity yields a channel value of at least 0. -/
theorem claim_c10_channels_nonneg (logs : List LogEntry) :
    ∀ p ∈ processChartData logs,
      (∀ v, p.cramps = some v → 0 ≤ v) ∧ (∀ v, p.bloating = some v → 0 ≤ v) := by
  intro p hp
  obtain ⟨-, hchar⟩ := processChartData_point_char hp
  have hcramps : p.cramps = foldMax0 none (crampsVals (entriesOn p.date (sortedLogsOf logs))) := by
    calc p.cramps
        = ((entriesOn p.date (sortedLogsOf logs)).foldl updatePoint
            (emptyPoint p.date)).cramps := by rw [← hchar]
      _ = foldMax0 none (crampsVals (entriesOn p.date (sortedLogsOf logs))) :=
          foldl_updatePoint_cramps _ _
  have hbloat : p.bloating = foldMax0 none (bloatingVals (entriesOn p.date (sortedLogsOf logs))) := by
    calc p.bloating
        = ((entriesOn p.date (sortedLogsOf logs)).foldl updatePoint
            (emptyPoint p.date)).bloating := by rw [← hchar]
      _ = foldMax0 none (bloatingVals (entriesOn p.date (sortedLogsOf logs))) :=
          foldl_updatePoint_bloating _ _
  constructor
  · intro v hv
    rw [hcramps] at hv
    exact foldMax0_nonneg (fun a ha => absurd ha (by simp)) hv
  · intro v hv
    rw [hbloat] at hv
    exact foldMax0_nonneg (fun a ha => absurd ha (by simp)) hv

/-- A symptom entry with a negative cramps severity. -/
def negativeSeverityLogs : List LogEntry :=
  [ ⟨"n1", 0, .symptom ⟨none, some (-3), none, none, none⟩⟩ ]

theorem claim_c10_channels_nonneg_witness :
    0 ≤ (0 : Int) ∧
    (processChartData negativeSeverityLogs) = [⟨"1970-01-01", some 0, none, none⟩] :=
  ⟨(claim_c10_channels_nonneg negativeSeverityLogs ⟨"1970-01-01", some 0, none, none⟩
      (by decide)).1 0 (by decide),
   by decide⟩

/-! ## Lemmas: CRUD -/

theorem createLogEntry_perm (logs : List LogEntry) (entryData : LogEntry) (now : Int)
    (freshId : String) :
    (createLogEntry logs entryData now freshId).Perm
      (mkNewEntry entryData now freshId :: logs) := by
  unfold createLogEntry
  exact (stableSortBy_perm _ _).trans (List.perm_append_singleton _ _)

theorem pairwise_desc_of_sorted {l : List LogEntry}
    (h : l.Pairwise (fun a b => tsDescLe a b = true)) :
    l.Pairwise (fun a b => b.timestamp ≤ a.timestamp) :=
  h.imp (fun hab => of_decide_eq_true hab)

theorem createLogEntry_sorted (logs : List LogEntry) (entryData : LogEntry) (now : Int)
    (freshId : String) :
    (createLogEntry logs entryData now freshId).Pairwise
      (fun a b => b.timestamp ≤ a.timestamp) :=
  pairwise_desc_of_sorted (stableSortBy_pairwise tsDescLe_trans tsDescLe_total _)

theorem updateLogEntry_perm (logs : List LogEntry) (updated : LogEntry) :
    (updateLogEntry logs updated).Perm
      (logs.map (fun log => if log.id = updated.id then updated else log)) :=
  stableSortBy_perm _ _

/-! ## Claim C2 -/

/-- C2: `createLogEntry` stores a new entry carrying the freshly assigned id
and `timestamp = now`, overriding any caller-supplied id or timestamp; the
new entry is added, the collection is re-sorted descending by timestamp, all
pre-existing entries remain present, and id-uniqueness is preserved when the
fresh id is new. -/
theorem claim_c2_create_fresh_identity (logs : List LogEntry) (entryData : LogEntry)
    (now : Int) (freshId : String)
    (hfresh : freshId ∉ logs.map (fun e => e.id))
    (hnodup : (logs.map (fun e => e.id)).Nodup) :
    (mkNewEntry entryData now freshId).id = freshId ∧
    (mkNewEntry entryData now freshId).timestamp = now ∧
    (mkNewEntry entryData now freshId).data = entryData.data ∧
    (createLogEntry logs entryData now freshId).Perm
      (mkNewEntry entryData now freshId :: logs) ∧
    (∀ e ∈ logs, e ∈ createLogEntry logs entryData now freshId) ∧
    ((createLogEntry logs entryData now freshId).map (fun e => e.id)).Nodup ∧
    (createLogEntry logs entryData now freshId).Pairwise
      (fun a b => b.timestamp ≤ a.timestamp) := by
  have hperm := createLogEntry_perm logs entryData now freshId
  refine ⟨rfl, rfl, rfl, hperm, ?_, ?_, createLogEntry_sorted logs entryData now freshId⟩
  · intro e he
    exact hperm.mem_iff.mpr (List.mem_cons_of_mem _ he)
  · have hmap := hperm.map (fun e => e.id)
    refine hmap.symm.nodup ?_
    rw [List.map_cons]
    exact List.nodup_cons.mpr ⟨hfresh, hnodup⟩

/-- A caller-supplied record whose id and timestamp must be ignored. -/
def callerSupplied : LogEntry := ⟨"caller-id", 424242, .intake ⟨"tea", none, none⟩⟩

theorem claim_c2_create_fresh_identity_witness :
    (mkNewEntry callerSupplied 1704153600000 "fresh-1").id = "fresh-1" ∧
    (mkNewEntry callerSupplied 1704153600000 "fresh-1").timestamp = 1704153600000 ∧
    (createLogEntry exampleLogs callerSupplied 1704153600000 "fresh-1").Perm
      (mkNewEntry callerSupplied 1704153600000 "fresh-1" :: exampleLogs) := by
  have h := claim_c2_create_fresh_identity exampleLogs callerSupplied 1704153600000 "fresh-1"
    (by decide) (by decide)
  exact ⟨h.1, h.2.1, h.2.2.2.1⟩

/-! ## Claim C7 -/

/-- C7: `deleteLogEntry` removes exactly the entries whose id matches,
leaves all others unchanged (it yields a sublist of the collection), and for
an id present in no entry the collection is left entirely unchanged (a
no-op, not an error). -/
theorem claim_c7_delete_exact (logs : List LogEntry) (id : String) :
    (∀ e ∈ deleteLogEntry logs id, e ∈ logs ∧ e.id ≠ id) ∧
    (∀ e ∈ logs, e.id ≠ id → e ∈ deleteLogEntry logs id) ∧
    (deleteLogEntry logs id).Sublist logs ∧
    (id ∉ logs.map (fun e => e.id) → deleteLogEntry logs id = logs) := by
  refine ⟨?_, ?_, List.filter_sublist logs, ?_⟩
  · intro e he
    have h := List.mem_filter.mp he
    exact ⟨h.1, of_decide_eq_true h.2⟩
  · intro e he hne
    exact List.mem_filter.mpr ⟨he, decide_eq_true hne⟩
  · intro hid
    apply List.filter_eq_self.mpr
    intro e he
    apply decide_eq_true
    intro hc
    apply hid
    rw [← hc]
    exact List.mem_map_of_mem _ he

theorem claim_c7_delete_exact_witness :
    deleteLogEntry exampleLogs "absent-id" = exampleLogs :=
  (claim_c7_delete_exact exampleLogs "absent-id").2.2.2 (by decide)

/-! ## Claim C5 -/

/-- C5: exporting an empty collection creates no file and fires the
no-data alert; exporting a non-empty collection yields the entries in
non-decreasing timestamp order (a permutation of the collection); in both
cases the stored collection is returned unmutated. -/
theorem claim_c5_export_sorted_readonly (logs : List LogEntry) :
    (logs = [] → (handleExportData logs).1 = none ∧ (handleExportData logs).2.1 = true) ∧
    (logs ≠ [] → (handleExportData logs).2.1 = false) ∧
    (∀ c, (handleExportData logs).1 = some c →
      c.Perm logs ∧ c.Pairwise (fun a b => a.timestamp ≤ b.timestamp)) ∧
    (handleExportData logs).2.2 = logs := by
  by_cases h : logs.length = 0
  · have hnil : logs = [] := List.length_eq_zero.mp h
    subst hnil
    exact ⟨fun _ => ⟨rfl, rfl⟩, fun hne => absurd rfl hne, fun c hc => Option.noConfusion hc, rfl⟩
  · have hne : logs ≠ [] := fun hc => h (by rw [hc]; rfl)
    unfold handleExportData
    rw [if_neg h]
    refine ⟨fun hc => absurd hc hne, fun _ => rfl, ?_, rfl⟩
    intro c hc
    have hceq : c = stableSortBy tsAscLe logs := (Option.some.inj hc).symm
    subst hceq
    refine ⟨stableSortBy_perm _ _, ?_⟩
    exact (stableSortBy_pairwise tsAscLe_trans tsAscLe_total logs).imp
      (fun hab => of_decide_eq_true hab)

theorem claim_c5_export_sorted_readonly_witness :
    (handleExportData []).1 = none ∧ (handleExportData []).2.1 = true ∧
    (handleExportData exampleLogs).2.1 = false ∧
    (handleExportData exampleLogs).2.2 = exampleLogs := by
  have he := claim_c5_export_sorted_readonly []
  have hx := claim_c5_export_sorted_readonly exampleLogs
  exact ⟨(he.1 rfl).1, (he.1 rfl).2, hx.2.1 (by decide), hx.2.2.2⟩

/-! ## Claim C6 -/

/-- A stored symptom entry with id "a". -/
def c6Original : LogEntry := ⟨"a", 5, .symptom ⟨none, some 1, none, none, none⟩⟩

/-- An update carrying id "a" but the stress type: `updateLogEntry` replaces
the record entirely, type included. -/
def c6TypeChangingUpdate : LogEntry := ⟨"a", 7, .stress ⟨2, none⟩⟩

/-- An update carrying id "a" with the symptom type preserved. -/
def c6SameTypeUpdate : LogEntry := ⟨"a", 9, .symptom ⟨none, some 4, some 2, none, none⟩⟩

/-- C6 counterexample: updating the sole (symptom) entry with a stress-typed
record of the same id leaves no entry of the previous type in the
collection — the resulting entry's `type` is the update's, not "the same
type as before", refuting the claim as stated for type-changing updates. -/
theorem claim_c6_counterexample :
    c6TypeChangingUpdate.id = c6Original.id ∧
    c6Original.type = "symptom" ∧
    updateLogEntry [c6Original] c6TypeChangingUpdate = [c6TypeChangingUpdate] ∧
    (updateLogEntry [c6Original] c6TypeChangingUpdate).map LogEntry.type = ["stress"] := by
  decide

/-- C6 (amended): for every update carrying the id of an existing entry
whose `type` equals the update's (as every in-app caller guarantees), the
resulting collection contains the updated entry — same id, same type as
before, all other fields from the supplied update — every entry with a
different id is unchanged, nothing else is added or removed, and the
collection is re-sorted descending by timestamp. -/
theorem claim_c6_update_preserves_identity (logs : List LogEntry) (updated old : LogEntry)
    (hold : old ∈ logs) (hid : old.id = updated.id) (htype : updated.type = old.type) :
    updated ∈ updateLogEntry logs updated ∧
    (∀ e ∈ updateLogEntry logs updated, e.id = updated.id → e = updated ∧ e.type = old.type) ∧
    (∀ e ∈ logs, e.id ≠ updated.id → e ∈ updateLogEntry logs updated) ∧
    (∀ e ∈ updateLogEntry logs updated, e = updated ∨ (e ∈ logs ∧ e.id ≠ updated.id)) ∧
    (updateLogEntry logs updated).length = logs.length ∧
    (updateLogEntry logs updated).Pairwise (fun a b => b.timestamp ≤ a.timestamp) := by
  have hperm := updateLogEntry_perm logs updated
  refine ⟨?_, ?_, ?_, ?_, ?_, ?_⟩
  · apply hperm.mem_iff.mpr
    apply List.mem_map.mpr
    exact ⟨old, hold, by rw [if_pos hid]⟩
  · intro e he heid
    obtain ⟨x, hx, hfx⟩ := List.mem_map.mp (hperm.mem_iff.mp he)
    by_cases hxid : x.id = updated.id
    · rw [if_pos hxid] at hfx
      exact ⟨hfx.symm, by rw [← hfx, htype]⟩
    · rw [if_neg hxid] at hfx
      rw [← hfx] at heid
      exact absurd heid hxid
  · intro e he hne
    apply hperm.mem_iff.mpr
    apply List.mem_map.mpr
    exact ⟨e, he, by rw [if_neg hne]⟩
  · intro e he
    obtain ⟨x, hx, hfx⟩ := List.mem_map.mp (hperm.mem_iff.mp he)
    by_cases hxid : x.id = updated.id
    · rw [if_pos hxid] at hfx
      exact Or.inl hfx.symm
    · rw [if_neg hxid] at hfx
      subst hfx
      exact Or.inr ⟨hx, hxid⟩
  · rw [hperm.length_eq, List.length_map]
  · exact pairwise_desc_of_sorted (stableSortBy_pairwise tsDescLe_trans tsDescLe_total _)

theorem claim_c6_update_preserves_identity_witness :
    c6SameTypeUpdate ∈ updateLogEntry [c6Original] c6SameTypeUpdate ∧
    updateLogEntry [c6Original] c6SameTypeUpdate = [c6SameTypeUpdate] := by
  have h := claim_c6_update_preserves_identity [c6Original] c6SameTypeUpdate c6Original
    (by decide) (by decide) (by decide)
  exact ⟨h.1, by decide⟩

/-! ## Claim C3 -/

/-- C3: when the most recent stress entry falls on the current calendar day
(the `stressLoggedToday` state computed by `checkStressLogStatus`), a create
(non-edit) stress save is refused with the alert and the collection is left
unchanged; an edit (truthy id and timestamp) always goes to
`updateLogEntry`, exempt from the check; and a create on a day with no
stress entry yet succeeds, storing the new entry. -/
theorem claim_c3_stress_daily_uniqueness (logs : List LogEntry) (data : StressFormData)
    (now : Int) (freshId : String) :
    (¬(data.id ≠ "" ∧ data.timestamp ≠ 0) → stressLoggedTodayState logs now = true →
      handleSaveStress logs data now freshId (stressLoggedTodayState logs now) =
        (logs, true)) ∧
    ((data.id ≠ "" ∧ data.timestamp ≠ 0) → ∀ flag,
      handleSaveStress logs data now freshId flag =
        (updateLogEntry logs data.toEntry, false)) ∧
    (¬(data.id ≠ "" ∧ data.timestamp ≠ 0) → stressLoggedTodayState logs now = false →
      handleSaveStress logs data now freshId (stressLoggedTodayState logs now) =
        (createLogEntry logs data.toEntry now freshId, false) ∧
      mkNewEntry data.toEntry now freshId ∈
        (handleSaveStress logs data now freshId (stressLoggedTodayState logs now)).1) := by
  refine ⟨?_, ?_, ?_⟩
  · intro hnoedit htoday
    unfold handleSaveStress
    rw [if_neg hnoedit, htoday, if_pos rfl]
  · intro hedit flag
    unfold handleSaveStress
    rw [if_pos hedit]
  · intro hnoedit hno
    unfold handleSaveStress
    rw [if_neg hnoedit, hno]
    refine ⟨rfl, ?_⟩
    show mkNewEntry data.toEntry now freshId ∈ createLogEntry logs data.toEntry now freshId
    exact (createLogEntry_perm logs data.toEntry now freshId).mem_iff.mpr
      (List.mem_cons_self _ _)

/-- A create-mode stress form payload (empty id, zero timestamp). -/
def freshStressData : StressFormData := ⟨"", 0, 3, none⟩

/-- An edit-mode stress form payload. -/
def editStressData : StressFormData := ⟨"e3", 1704188800000, 1, none⟩

theorem claim_c3_stress_daily_uniqueness_witness :
    handleSaveStress exampleLogs freshStressData 1704196800000 "fresh-2"
        (stressLoggedTodayState exampleLogs 1704196800000) = (exampleLogs, true) ∧
    handleSaveStress exampleLogs editStressData 1704196800000 "fresh-2" true =
      (updateLogEntry exampleLogs editStressData.toEntry, false) ∧
    handleSaveStress exampleLogs freshStressData 1704283200000 "fresh-2"
        (stressLoggedTodayState exampleLogs 1704283200000) =
      (createLogEntry exampleLogs freshStressData.toEntry 1704283200000 "fresh-2", false) := by
  have h1 := claim_c3_stress_daily_uniqueness exampleLogs freshStressData 1704196800000 "fresh-2"
  have h2 := claim_c3_stress_daily_uniqueness exampleLogs editStressData 1704196800000 "fresh-2"
  have h3 := claim_c3_stress_daily_uniqueness exampleLogs freshStressData 1704283200000 "fresh-2"
  exact ⟨h1.1 (by decide) (by decide), h2.2.1 (by decide) true,
         (h3.2.2 (by decide) (by decide)).1⟩

/-! ## Claim C4 -/

/-- C4: when editing an existing entry, an edited date/time whose parse is
`NaN` (embedded as `none`) blocks the save in both the stress and the
intake form: `handleSubmit` returns no payload, `onSave` is never invoked,
and the stored collection is unchanged. -/
theorem claim_c4_unparseable_timestamp_blocks (logs : List LogEntry)
    (init : StressFormData) (level : Int) (notes : String)
    (initI : IntakeFormData) (item quantity notesI : String)
    (now : Int) (freshId : String) (flag : Bool) :
    StressFormHandleSubmit (some init) none level notes = none ∧
    IntakeFormHandleSubmit (some initI) none item quantity notesI = none ∧
    stressSubmitThenSave logs (some init) none level notes now freshId flag = logs := by
  refine ⟨rfl, ?_, rfl⟩
  unfold IntakeFormHandleSubmit
  by_cases h : trimStr item = ""
  · rw [if_pos h]
  · rw [if_neg h]

/-! ## Lemmas: the civil calendar

The year-lookup formula of `yoeOf` is validated at the 400 year boundaries
of an era by `decide` and interpolated by monotonicity; the month/day
formula of `mdOf` is validated on all 366 days of a (March-based) year by
`decide`.  Everything else is arithmetic. -/

/-- The numerator of `yoeOf` (leap-day corrections applied to the day). -/
def yoeNum (doe : Nat) : Nat := doe - doe / 1460 + doe / 36524 - doe / 146096

theorem yoeOf_eq_yoeNum (doe : Nat) : yoeOf doe = yoeNum doe / 365 := rfl

theorem yoeNum_step (n : Nat) (h : n < 146096) : yoeNum n ≤ yoeNum (n + 1) := by
  unfold yoeNum
  omega

theorem yoeNum_mono : ∀ (b a : Nat), a ≤ b → b ≤ 146096 → yoeNum a ≤ yoeNum b := by
  intro b
  induction b with
  | zero =>
    intro a ha hb
    have : a = 0 := by omega
    subst this
    exact le_refl _
  | succ m ih =>
    intro a ha hb
    rcases Nat.lt_or_ge a (m + 1) with h | h
    · exact le_trans (ih a (by omega) (by omega)) (yoeNum_step m (by omega))
    · have : a = m + 1 := by omega
      subst this
      exact le_refl _

theorem yoeOf_mono {a b : Nat} (hab : a ≤ b) (hb : b ≤ 146096) : yoeOf a ≤ yoeOf b := by
  rw [yoeOf_eq_yoeNum, yoeOf_eq_yoeNum]
  exact Nat.div_le_div_right (yoeNum_mono b a hab hb)

theorem dys_mono {a b : Nat} (hab : a ≤ b) : dys a ≤ dys b := by
  unfold dys
  have h1 : a / 4 ≤ b / 4 := Nat.div_le_div_right hab
  have h2 : b / 100 ≤ a / 100 + (b - a) := by
    calc b / 100 ≤ (a + 100 * (b - a)) / 100 := Nat.div_le_div_right (by omega)
      _ = a / 100 + (b - a) := by
          rw [Nat.add_mul_div_left a (b - a) (by norm_num)]
  omega

theorem dys_gap (k : Nat) : 365 ≤ dys (k + 1) - dys k ∧ dys (k + 1) - dys k ≤ 366 := by
  unfold dys
  omega

/-- The last day-of-era of the March-based year `k` of an era (year 399 runs
through the era's final leap day 146096). -/
def dysEnd (k : Nat) : Nat := if k = 399 then 146096 else dys (k + 1) - 1

set_option maxRecDepth 2000 in
theorem yoe_endpoints : ∀ k, k < 400 → yoeOf (dys k) = k ∧ yoeOf (dysEnd k) = k := by decide

/-- Lexicographic order on (month, day). -/
def mdLex (a b : Nat × Nat) : Prop := a.1 < b.1 ∨ (a.1 = b.1 ∧ a.2 < b.2)

instance (a b : Nat × Nat) : Decidable (mdLex a b) := by
  unfold mdLex
  infer_instance

set_option maxRecDepth 2000 in
theorem md_props : ∀ doy, doy < 366 →
    (1 ≤ (mdOf doy).1 ∧ (mdOf doy).1 ≤ 12 ∧ 1 ≤ (mdOf doy).2 ∧ (mdOf doy).2 ≤ 31 ∧
     ((mdOf doy).1 ≤ 2 ↔ 306 ≤ doy) ∧
     (doy < 365 → doy + 1 ≠ 306 → mdLex (mdOf doy) (mdOf (doy + 1)))) := by decide

theorem yoeOf_le (doe : Nat) (h : doe ≤ 146096) : yoeOf doe ≤ 399 := by
  have h1 : yoeNum doe ≤ yoeNum 146096 := yoeNum_mono 146096 doe h (le_refl _)
  have h2 : yoeNum 146096 = 145999 := by decide
  rw [yoeOf_eq_yoeNum]
  omega

theorem dysEnd_le (k : Nat) (hk : k ≤ 399) : dysEnd k ≤ 146096 := by
  unfold dysEnd
  by_cases h : k = 399
  · rw [if_pos h]
  · rw [if_neg h]
    have h1 : dys (k + 1) ≤ dys 400 := dys_mono (by omega)
    have h2 : dys 400 = 146096 := by decide
    omega

/-- The year interval a day-of-era falls in: `yoeOf` is exact. -/
theorem yoe_char (doe : Nat) (h : doe ≤ 146096) :
    dys (yoeOf doe) ≤ doe ∧ doe ≤ dysEnd (yoeOf doe) := by
  have hk399 := yoeOf_le doe h
  constructor
  · by_contra hlt
    push_neg at hlt
    have hk1 : 1 ≤ yoeOf doe := by
      by_contra h0
      have h00 : yoeOf doe = 0 := by omega
      rw [h00] at hlt
      have : dys 0 = 0 := by decide
      omega
    have harg : yoeOf doe - 1 + 1 = yoeOf doe := by omega
    have hend : dysEnd (yoeOf doe - 1) = dys (yoeOf doe) - 1 := by
      unfold dysEnd
      rw [if_neg (by omega), harg]
    have hle : doe ≤ dysEnd (yoeOf doe - 1) := by
      rw [hend]
      omega
    have hbound : dysEnd (yoeOf doe - 1) ≤ 146096 := dysEnd_le _ (by omega)
    have hmono := yoeOf_mono hle hbound
    have hval := (yoe_endpoints (yoeOf doe - 1) (by omega)).2
    omega
  · by_cases h399 : yoeOf doe = 399
    · rw [h399]
      unfold dysEnd
      rw [if_pos rfl]
      exact h
    · by_contra hgt
      push_neg at hgt
      have hend : dysEnd (yoeOf doe) = dys (yoeOf doe + 1) - 1 := by
        unfold dysEnd
        rw [if_neg h399]
      have hdys1 : 365 ≤ dys (yoeOf doe + 1) - dys (yoeOf doe) := (dys_gap _).1
      have hge : dys (yoeOf doe + 1) ≤ doe := by omega
      have hmono := yoeOf_mono hge h
      have hval := (yoe_endpoints (yoeOf doe + 1) (by omega)).1
      omega

/-- Lexicographic order on a civil (year-within-era, month, day) triple. -/
def lexLtN (a b : Nat × Nat × Nat) : Prop :=
  a.1 < b.1 ∨ (a.1 = b.1 ∧ (a.2.1 < b.2.1 ∨ (a.2.1 = b.2.1 ∧ a.2.2 < b.2.2)))

theorem tripleOfDoe_eq (doe : Nat) :
    tripleOfDoe doe =
      (yoeOf doe + (if (mdOf (doe - dys (yoeOf doe))).1 ≤ 2 then 1 else 0),
       (mdOf (doe - dys (yoeOf doe))).1, (mdOf (doe - dys (yoeOf doe))).2) := rfl

theorem doy_le (doe : Nat) (h : doe ≤ 146096) : doe - dys (yoeOf doe) ≤ 365 := by
  have hchar := yoe_char doe h
  have hk := yoeOf_le doe h
  by_cases h399 : yoeOf doe = 399
  · have : dys 399 = 145731 := by decide
    rw [h399] at hchar ⊢
    omega
  · have hend : dysEnd (yoeOf doe) = dys (yoeOf doe + 1) - 1 := by
      unfold dysEnd
      rw [if_neg h399]
    have hgap := dys_gap (yoeOf doe)
    omega

theorem tripleOfDoe_bounds (doe : Nat) (h : doe ≤ 146096) :
    (tripleOfDoe doe).1 ≤ 400 ∧
    1 ≤ (tripleOfDoe doe).2.1 ∧ (tripleOfDoe doe).2.1 ≤ 12 ∧
    1 ≤ (tripleOfDoe doe).2.2 ∧ (tripleOfDoe doe).2.2 ≤ 31 := by
  have hdoy := doy_le doe h
  have hk := yoeOf_le doe h
  have hmd := md_props (doe - dys (yoeOf doe)) (by omega)
  rw [tripleOfDoe_eq]
  refine ⟨?_, hmd.1, hmd.2.1, hmd.2.2.1, hmd.2.2.2.1⟩
  by_cases hadj : (mdOf (doe - dys (yoeOf doe))).1 ≤ 2
  · rw [if_pos hadj]
    omega
  · rw [if_neg hadj]
    omega

/-- Successor monotonicity of the civil triple within an era. -/
theorem tripleOfDoe_succ (doe : Nat) (h : doe < 146096) :
    lexLtN (tripleOfDoe doe) (tripleOfDoe (doe + 1)) := by
  have hchar := yoe_char doe (by omega)
  have hk := yoeOf_le doe (by omega)
  by_cases hb : doe = dysEnd (yoeOf doe)
  · have h399 : yoeOf doe ≠ 399 := by
      intro h399
      rw [h399] at hb
      unfold dysEnd at hb
      rw [if_pos rfl] at hb
      omega
    have hend : dysEnd (yoeOf doe) = dys (yoeOf doe + 1) - 1 := by
      unfold dysEnd
      rw [if_neg h399]
    have hgap := dys_gap (yoeOf doe)
    have hsucc : doe + 1 = dys (yoeOf doe + 1) := by omega
    have hyoe1 : yoeOf (doe + 1) = yoeOf doe + 1 := by
      rw [hsucc]
      exact (yoe_endpoints (yoeOf doe + 1) (by omega)).1
    have hdoy1 : doe + 1 - dys (yoeOf (doe + 1)) = 0 := by
      rw [hyoe1, hsucc]
      omega
    have hmd0 : mdOf 0 = (3, 1) := by decide
    have hdoyge : 306 ≤ doe - dys (yoeOf doe) := by omega
    have hmd := md_props (doe - dys (yoeOf doe)) (by have := doy_le doe (by omega); omega)
    have hadj : (mdOf (doe - dys (yoeOf doe))).1 ≤ 2 := hmd.2.2.2.2.1.mpr hdoyge
    rw [tripleOfDoe_eq, tripleOfDoe_eq, hdoy1, hyoe1, hmd0]
    simp only [lexLtN]
    rw [if_pos hadj]
    have h32 : ¬ (3 : Nat) ≤ 2 := by norm_num
    rw [if_neg h32]
    right
    exact ⟨by omega, Or.inl (by omega)⟩
  · have hyoe1 : yoeOf (doe + 1) = yoeOf doe := by
      have hle : doe + 1 ≤ dysEnd (yoeOf doe) := by omega
      have h1 : yoeOf doe ≤ yoeOf (doe + 1) :=
        yoeOf_mono (by omega) (le_trans hle (dysEnd_le _ hk))
      have h2 : yoeOf (doe + 1) ≤ yoeOf (dysEnd (yoeOf doe)) :=
        yoeOf_mono hle (dysEnd_le _ hk)
      have hval := (yoe_endpoints (yoeOf doe) (by omega)).2
      omega
    have hdoy1 : doe + 1 - dys (yoeOf (doe + 1)) = (doe - dys (yoeOf doe)) + 1 := by
      rw [hyoe1]
      omega
    have hdoyle : doe - dys (yoeOf doe) + 1 ≤ 365 := by
      have h0 := doy_le (doe + 1) (by omega)
      rw [hdoy1] at h0
      omega
    have hmd := md_props (doe - dys (yoeOf doe)) (by omega)
    have hmd1 := md_props (doe - dys (yoeOf doe) + 1) (by omega)
    rw [tripleOfDoe_eq, tripleOfDoe_eq, hdoy1, hyoe1]
    simp only [lexLtN]
    by_cases hroll : doe - dys (yoeOf doe) + 1 = 306
    · have hlt306 : ¬ 306 ≤ doe - dys (yoeOf doe) := by omega
      have hge306 : 306 ≤ doe - dys (yoeOf doe) + 1 := by omega
      have hadj0 : ¬ (mdOf (doe - dys (yoeOf doe))).1 ≤ 2 :=
        fun hc => hlt306 (hmd.2.2.2.2.1.mp hc)
      have hadj1 : (mdOf (doe - dys (yoeOf doe) + 1)).1 ≤ 2 :=
        hmd1.2.2.2.2.1.mpr hge306
      rw [if_neg hadj0, if_pos hadj1]
      left
      omega
    · have hstep := hmd.2.2.2.2.2 (by omega) hroll
      simp only [mdLex] at hstep
      by_cases hcase : 306 ≤ doe - dys (yoeOf doe)
      · have hadj0 : (mdOf (doe - dys (yoeOf doe))).1 ≤ 2 := hmd.2.2.2.2.1.mpr hcase
        have hadj1 : (mdOf (doe - dys (yoeOf doe) + 1)).1 ≤ 2 :=
          hmd1.2.2.2.2.1.mpr (by omega)
        rw [if_pos hadj0, if_pos hadj1]
        rcases hstep with hm | ⟨hmeq, hd⟩
        · exact Or.inr ⟨by omega, Or.inl hm⟩
        · exact Or.inr ⟨by omega, Or.inr ⟨hmeq, hd⟩⟩
      · have hadj0 : ¬ (mdOf (doe - dys (yoeOf doe))).1 ≤ 2 :=
          fun hc => hcase (hmd.2.2.2.2.1.mp hc)
        have hadj1 : ¬ (mdOf (doe - dys (yoeOf doe) + 1)).1 ≤ 2 := by
          intro hc
          have h306 := hmd1.2.2.2.2.1.mp hc
          omega
        rw [if_neg hadj0, if_neg hadj1]
        rcases hstep with hm | ⟨hmeq, hd⟩
        · exact Or.inr ⟨by omega, Or.inl hm⟩
        · exact Or.inr ⟨by omega, Or.inr ⟨hmeq, hd⟩⟩

/-! ## Lemmas: civil date of a day number -/

/-- Lexicographic order on full civil (year, month, day) triples. -/
def civilLt (a b : Int × Nat × Nat) : Prop :=
  a.1 < b.1 ∨ (a.1 = b.1 ∧ (a.2.1 < b.2.1 ∨ (a.2.1 = b.2.1 ∧ a.2.2 < b.2.2)))

theorem civilFromDays_eq (z : Int) :
    civilFromDays z =
      ((z + 719468) / 146097 * 400 + ((tripleOfDoe ((z + 719468) % 146097).toNat).1 : Int),
       (tripleOfDoe ((z + 719468) % 146097).toNat).2.1,
       (tripleOfDoe ((z + 719468) % 146097).toNat).2.2) := rfl

theorem civilFromDays_succ (z : Int) : civilLt (civilFromDays z) (civilFromDays (z + 1)) := by
  have hnn : 0 ≤ (z + 719468) % 146097 := by omega
  have hlt : (z + 719468) % 146097 < 146097 := by omega
  rw [civilFromDays_eq, civilFromDays_eq]
  have heq : z + 1 + 719468 = z + 719468 + 1 := by ring
  rw [heq]
  by_cases hcase : (z + 719468) % 146097 = 146096
  · have hdiv : (z + 719468 + 1) / 146097 = (z + 719468) / 146097 + 1 := by omega
    have hmod : (z + 719468 + 1) % 146097 = 0 := by omega
    rw [hdiv, hmod, hcase]
    have h1 : ((146096 : Int)).toNat = 146096 := rfl
    have h3 : ((0 : Int)).toNat = 0 := rfl
    rw [h1, h3]
    have h2 : tripleOfDoe 146096 = (400, 2, 29) := by decide
    have h4 : tripleOfDoe 0 = (0, 3, 1) := by decide
    rw [h2, h4]
    simp only [civilLt]
    right
    constructor
    · push_cast
      ring
    · left
      norm_num
  · have hdiv : (z + 719468 + 1) / 146097 = (z + 719468) / 146097 := by omega
    have hmod : (z + 719468 + 1) % 146097 = (z + 719468) % 146097 + 1 := by omega
    rw [hdiv, hmod]
    have htn : ((z + 719468) % 146097 + 1).toNat = ((z + 719468) % 146097).toNat + 1 := by
      omega
    rw [htn]
    have hdoelt : ((z + 719468) % 146097).toNat < 146096 := by omega
    have hstep := tripleOfDoe_succ ((z + 719468) % 146097).toNat hdoelt
    simp only [lexLtN] at hstep
    simp only [civilLt]
    rcases hstep with hy | ⟨hyeq, hrest⟩
    · left
      have hyi : ((tripleOfDoe ((z + 719468) % 146097).toNat).1 : Int) <
          ((tripleOfDoe (((z + 719468) % 146097).toNat + 1)).1 : Int) := by
        exact_mod_cast hy
      omega
    · right
      rw [hyeq]
      exact ⟨rfl, hrest⟩

theorem civilLt_trans {a b c : Int × Nat × Nat} (h1 : civilLt a b) (h2 : civilLt b c) :
    civilLt a c := by
  simp only [civilLt] at h1 h2 ⊢
  rcases h1 with h1 | ⟨h1e, h1r⟩
  · rcases h2 with h2 | ⟨h2e, _⟩
    · exact Or.inl (lt_trans h1 h2)
    · exact Or.inl (h2e ▸ h1)
  · rcases h2 with h2 | ⟨h2e, h2r⟩
    · exact Or.inl (h1e ▸ h2)
    · refine Or.inr ⟨h1e.trans h2e, ?_⟩
      rcases h1r with h1r | ⟨h1me, h1d⟩
      · rcases h2r with h2r | ⟨h2me, _⟩
        · exact Or.inl (lt_trans h1r h2r)
        · exact Or.inl (h2me ▸ h1r)
      · rcases h2r with h2r | ⟨h2me, h2d⟩
        · exact Or.inl (h1me ▸ h2r)
        · exact Or.inr ⟨h1me.trans h2me, lt_trans h1d h2d⟩

theorem civilFromDays_mono {z1 z2 : Int} (h : z1 < z2) :
    civilLt (civilFromDays z1) (civilFromDays z2) := by
  have key : ∀ (n : Nat) (z : Int), civilLt (civilFromDays z) (civilFromDays (z + 1 + n)) := by
    intro n
    induction n with
    | zero =>
      intro z
      simpa using civilFromDays_succ z
    | succ m ih =>
      intro z
      have h2 := civilFromDays_succ (z + 1 + (m : Int))
      have heq : z + 1 + (m : Int) + 1 = z + 1 + ((m + 1 : Nat) : Int) := by
        push_cast
        ring
      rw [heq] at h2
      exact civilLt_trans (ih z) h2
  have hn : z2 = z1 + 1 + ((z2 - z1 - 1).toNat : Int) := by omega
  rw [hn]
  exact key _ z1

theorem civilLt_irrefl (a : Int × Nat × Nat) : ¬ civilLt a a := by
  simp only [civilLt]
  omega

/-! ## Lemmas: comparing formatted date strings -/

theorem charListLt_append_left : ∀ {l1 l2 : List Char}, charListLt l1 l2 = true →
    l1.length = l2.length → ∀ (r1 r2 : List Char), charListLt (l1 ++ r1) (l2 ++ r2) = true := by
  intro l1
  induction l1 with
  | nil =>
    intro l2 h hlen r1 r2
    cases l2 with
    | nil => simp [charListLt] at h
    | cons b bs => simp at hlen
  | cons a as ih =>
    intro l2 h hlen r1 r2
    cases l2 with
    | nil => simp at hlen
    | cons b bs =>
      rcases charListLt_cons_iff.mp h with hab | ⟨rfl, ht⟩
      · exact charListLt_cons_iff.mpr (Or.inl hab)
      · exact charListLt_cons_iff.mpr (Or.inr ⟨rfl, ih ht (by simpa using hlen) r1 r2⟩)

theorem charListLt_append_right : ∀ (l : List Char) {r1 r2 : List Char},
    charListLt r1 r2 = true → charListLt (l ++ r1) (l ++ r2) = true := by
  intro l
  induction l with
  | nil =>
    intro r1 r2 h
    exact h
  | cons a as ih =>
    intro r1 r2 h
    exact charListLt_cons_iff.mpr (Or.inr ⟨rfl, ih h⟩)

/-- Facts about the 4-digit decimal renderings: fixed width and
order-compatible with the successor. -/
def reprOk (n : Nat) : Prop :=
  (Nat.repr n).data.length = 4 ∧
  (n ≤ 9998 → strLtB (Nat.repr n) (Nat.repr (n + 1)) = true)

instance (n : Nat) : Decidable (reprOk n) := by
  unfold reprOk
  infer_instance

set_option maxRecDepth 20000 in
theorem reprChunk0 : ∀ i, i < 500 → reprOk (1000 + i) := by decide

set_option maxRecDepth 20000 in
theorem reprChunk1 : ∀ i, i < 500 → reprOk (1500 + i) := by decide

set_option maxRecDepth 20000 in
theorem reprChunk2 : ∀ i, i < 500 → reprOk (2000 + i) := by decide

set_option maxRecDepth 20000 in
theorem reprChunk3 : ∀ i, i < 500 → reprOk (2500 + i) := by decide

set_option maxRecDepth 20000 in
theorem reprChunk4 : ∀ i, i < 500 → reprOk (3000 + i) := by decide

set_option maxRecDepth 20000 in
theorem reprChunk5 : ∀ i, i < 500 → reprOk (3500 + i) := by decide

set_option maxRecDepth 20000 in
theorem reprChunk6 : ∀ i, i < 500 → reprOk (4000 + i) := by decide

set_option maxRecDepth 20000 in
theorem reprChunk7 : ∀ i, i < 500 → reprOk (4500 + i) := by decide

set_option maxRecDepth 20000 in
theorem reprChunk8 : ∀ i, i < 500 → reprOk (5000 + i) := by decide

set_option maxRecDepth 20000 in
theorem reprChunk9 : ∀ i, i < 500 → reprOk (5500 + i) := by decide

set_option maxRecDepth 20000 in
theorem reprChunk10 : ∀ i, i < 500 → reprOk (6000 + i) := by decide

set_option maxRecDepth 20000 in
theorem reprChunk11 : ∀ i, i < 500 → reprOk (6500 + i) := by decide

set_option maxRecDepth 20000 in
theorem reprChunk12 : ∀ i, i < 500 → reprOk (7000 + i) := by decide

set_option maxRecDepth 20000 in
theorem reprChunk13 : ∀ i, i < 500 → reprOk (7500 + i) := by decide

set_option maxRecDepth 20000 in
theorem reprChunk14 : ∀ i, i < 500 → reprOk (8000 + i) := by decide

set_option maxRecDepth 20000 in
theorem reprChunk15 : ∀ i, i < 500 → reprOk (8500 + i) := by decide

set_option maxRecDepth 20000 in
theorem reprChunk16 : ∀ i, i < 500 → reprOk (9000 + i) := by decide

set_option maxRecDepth 20000 in
theorem reprChunk17 : ∀ i, i < 500 → reprOk (9500 + i) := by decide

theorem reprOk_all (n : Nat) (h1 : 1000 ≤ n) (h2 : n ≤ 9999) : reprOk n := by
  rcases Nat.lt_or_ge n 1500 with h0 | h0
  · have hx := reprChunk0 (n - 1000) (by omega)
    have he : 1000 + (n - 1000) = n := by omega
    rwa [he] at hx
  rcases Nat.lt_or_ge n 2000 with h1 | h1
  · have hx := reprChunk1 (n - 1500) (by omega)
    have he : 1500 + (n - 1500) = n := by omega
    rwa [he] at hx
  rcases Nat.lt_or_ge n 2500 with h2 | h2
  · have hx := reprChunk2 (n - 2000) (by omega)
    have he : 2000 + (n - 2000) = n := by omega
    rwa [he] at hx
  rcases Nat.lt_or_ge n 3000 with h3 | h3
  · have hx := reprChunk3 (n - 2500) (by omega)
    have he : 2500 + (n - 2500) = n := by omega
    rwa [he] at hx
  rcases Nat.lt_or_ge n 3500 with h4 | h4
  · have hx := reprChunk4 (n - 3000) (by omega)
    have he : 3000 + (n - 3000) = n := by omega
    rwa [he] at hx
  rcases Nat.lt_or_ge n 4000 with h5 | h5
  · have hx := reprChunk5 (n - 3500) (by omega)
    have he : 3500 + (n - 3500) = n := by omega
    rwa [he] at hx
  rcases Nat.lt_or_ge n 4500 with h6 | h6
  · have hx := reprChunk6 (n - 4000) (by omega)
    have he : 4000 + (n - 4000) = n := by omega
    rwa [he] at hx
  rcases Nat.lt_or_ge n 5000 with h7 | h7
  · have hx := reprChunk7 (n - 4500) (by omega)
    have he : 4500 + (n - 4500) = n := by omega
    rwa [he] at hx
  rcases Nat.lt_or_ge n 5500 with h8 | h8
  · have hx := reprChunk8 (n - 5000) (by omega)
    have he : 5000 + (n - 5000) = n := by omega
    rwa [he] at hx
  rcases Nat.lt_or_ge n 6000 with h9 | h9
  · have hx := reprChunk9 (n - 5500) (by omega)
    have he : 5500 + (n - 5500) = n := by omega
    rwa [he] at hx
  rcases Nat.lt_or_ge n 6500 with h10 | h10
  · have hx := reprChunk10 (n - 6000) (by omega)
    have he : 6000 + (n - 6000) = n := by omega
    rwa [he] at hx
  rcases Nat.lt_or_ge n 7000 with h11 | h11
  · have hx := reprChunk11 (n - 6500) (by omega)
    have he : 6500 + (n - 6500) = n := by omega
    rwa [he] at hx
  rcases Nat.lt_or_ge n 7500 with h12 | h12
  · have hx := reprChunk12 (n - 7000) (by omega)
    have he : 7000 + (n - 7000) = n := by omega
    rwa [he] at hx
  rcases Nat.lt_or_ge n 8000 with h13 | h13
  · have hx := reprChunk13 (n - 7500) (by omega)
    have he : 7500 + (n - 7500) = n := by omega
    rwa [he] at hx
  rcases Nat.lt_or_ge n 8500 with h14 | h14
  · have hx := reprChunk14 (n - 8000) (by omega)
    have he : 8000 + (n - 8000) = n := by omega
    rwa [he] at hx
  rcases Nat.lt_or_ge n 9000 with h15 | h15
  · have hx := reprChunk15 (n - 8500) (by omega)
    have he : 8500 + (n - 8500) = n := by omega
    rwa [he] at hx
  rcases Nat.lt_or_ge n 9500 with h16 | h16
  · have hx := reprChunk16 (n - 9000) (by omega)
    have he : 9000 + (n - 9000) = n := by omega
    rwa [he] at hx
  · have hx := reprChunk17 (n - 9500) (by omega)
    have he : 9500 + (n - 9500) = n := by omega
    rwa [he] at hx

theorem reprLt_of_lt {m : Nat} : ∀ {n : Nat}, 1000 ≤ m → m < n → n ≤ 9999 →
    strLtB (Nat.repr m) (Nat.repr n) = true := by
  intro n
  induction n with
  | zero => omega
  | succ k ih =>
    intro h1 h2 h3
    rcases Nat.lt_or_ge m k with hmk | hmk
    · exact strLtB_trans (ih h1 hmk (by omega)) ((reprOk_all k (by omega) (by omega)).2 (by omega))
    · have hmke : m = k := by omega
      subst hmke
      exact (reprOk_all m (by omega) (by omega)).2 (by omega)

set_option maxRecDepth 4000 in
theorem padTwo_props : ∀ a, a < 32 → ∀ b, b < 32 →
    ((padTwo a).data.length = 2 ∧ (a < b → strLtB (padTwo a) (padTwo b) = true)) := by decide

theorem toString_int_nonneg (y : Int) (hy : 0 ≤ y) : toString y = Nat.repr y.toNat := by
  obtain ⟨n, rfl⟩ := Int.eq_ofNat_of_zero_le hy
  rfl

/-- The `${year}-${month}-${day}` template applied to a civil triple. -/
def fmtTriple (t : Int × Nat × Nat) : String :=
  toString t.1 ++ "-" ++ padTwo t.2.1 ++ "-" ++ padTwo t.2.2

theorem formatTimestampToDateString_eq (ts : Int) :
    formatTimestampToDateString ts = fmtTriple (civilFromDays (dayOfTimestamp ts)) := rfl

theorem fmtTriple_data (t : Int × Nat × Nat) :
    (fmtTriple t).data =
      (toString t.1).data ++
        ('-' :: ((padTwo t.2.1).data ++ ('-' :: (padTwo t.2.2).data))) := by
  have hdash : ("-" : String).data = ['-'] := rfl
  simp [fmtTriple, String.data_append, hdash, List.append_assoc]

theorem fmtTriple_lt {t1 t2 : Int × Nat × Nat} (h : civilLt t1 t2)
    (hy1l : 1000 ≤ t1.1) (hy1u : t1.1 ≤ 9999) (hy2l : 1000 ≤ t2.1) (hy2u : t2.1 ≤ 9999)
    (hm1 : t1.2.1 ≤ 12) (hd1 : t1.2.2 ≤ 31) (hm2 : t2.2.1 ≤ 12) (hd2 : t2.2.2 ≤ 31) :
    strLtB (fmtTriple t1) (fmtTriple t2) = true := by
  show charListLt (fmtTriple t1).data (fmtTriple t2).data = true
  rw [fmtTriple_data, fmtTriple_data]
  rw [toString_int_nonneg t1.1 (by omega), toString_int_nonneg t2.1 (by omega)]
  have hlen1 : (Nat.repr t1.1.toNat).data.length = 4 :=
    (reprOk_all t1.1.toNat (by omega) (by omega)).1
  have hlen2 : (Nat.repr t2.1.toNat).data.length = 4 :=
    (reprOk_all t2.1.toNat (by omega) (by omega)).1
  rcases h with hy | ⟨hyeq, hrest⟩
  · have hyn : t1.1.toNat < t2.1.toNat := by omega
    have hylt := reprLt_of_lt (by omega) hyn (by omega)
    exact charListLt_append_left hylt (by omega) _ _
  · rw [hyeq]
    apply charListLt_append_right
    apply charListLt_cons_iff.mpr
    refine Or.inr ⟨rfl, ?_⟩
    rcases hrest with hm | ⟨hmeq, hd⟩
    · have hpm := (padTwo_props t1.2.1 (by omega) t2.2.1 (by omega))
      have hpm1len : (padTwo t1.2.1).data.length = 2 := hpm.1
      have hpm2len : (padTwo t2.2.1).data.length = 2 :=
        (padTwo_props t2.2.1 (by omega) 0 (by omega)).1
      exact charListLt_append_left (hpm.2 hm) (by omega) _ _
    · rw [hmeq]
      apply charListLt_append_right
      apply charListLt_cons_iff.mpr
      refine Or.inr ⟨rfl, ?_⟩
      exact (padTwo_props t1.2.2 (by omega) t2.2.2 (by omega)).2 hd

/-- The civil year of a timestamp's calendar day. -/
def yearOfTimestamp (ts : Int) : Int := (civilFromDays (dayOfTimestamp ts)).1

/-- The timestamp's calendar day falls in the four-digit-year range
1000-9999, where the `YYYY-MM-DD` format is genuinely zero-padded. -/
def yearInRange (ts : Int) : Prop := 1000 ≤ yearOfTimestamp ts ∧ yearOfTimestamp ts ≤ 9999

instance (ts : Int) : Decidable (yearInRange ts) := by
  unfold yearInRange
  infer_instance

theorem civilFromDays_md_bounds (z : Int) :
    (civilFromDays z).2.1 ≤ 12 ∧ (civilFromDays z).2.2 ≤ 31 := by
  rw [civilFromDays_eq]
  have hb := tripleOfDoe_bounds ((z + 719468) % 146097).toNat (by omega)
  exact ⟨hb.2.2.1, hb.2.2.2.2⟩

/-- Chronological order of calendar days agrees with lexicographic order of
the formatted date strings, within the four-digit-year range. -/
theorem formatTimestampToDateString_mono {t1 t2 : Int}
    (h1 : yearInRange t1) (h2 : yearInRange t2)
    (hlt : dayOfTimestamp t1 < dayOfTimestamp t2) :
    strLtB (formatTimestampToDateString t1) (formatTimestampToDateString t2) = true := by
  rw [formatTimestampToDateString_eq, formatTimestampToDateString_eq]
  have hb1 := civilFromDays_md_bounds (dayOfTimestamp t1)
  have hb2 := civilFromDays_md_bounds (dayOfTimestamp t2)
  exact fmtTriple_lt (civilFromDays_mono hlt) h1.1 h1.2 h2.1 h2.2
    hb1.1 hb1.2 hb2.1 hb2.2

/-! ## Claim C8 -/

/-- A stress entry on 0999-12-31 (calendar day -354286). -/
def preGregorianEntry1 : LogEntry := ⟨"y999", -354286 * 86400000, .stress ⟨1, none⟩⟩

/-- A stress entry on 1000-01-01 (calendar day -354285), one day later. -/
def preGregorianEntry2 : LogEntry := ⟨"y1000", -354285 * 86400000, .stress ⟨2, none⟩⟩

/-- C8 counterexample: for a collection with a year-999 date the format is
not zero-padded `YYYY-MM-DD` ("999-12-31" has a 3-digit year), and the
date-string sort no longer coincides with chronological order: the
chronologically earlier day "999-12-31" sorts after "1000-01-01", so the
output lists the later day first. -/
theorem claim_c8_counterexample :
    preGregorianEntry1.timestamp < preGregorianEntry2.timestamp ∧
    formatTimestampToDateString preGregorianEntry1.timestamp = "999-12-31" ∧
    formatTimestampToDateString preGregorianEntry2.timestamp = "1000-01-01" ∧
    (processChartData [preGregorianEntry1, preGregorianEntry2]).map (fun p => p.date) =
      ["1000-01-01", "999-12-31"] := by decide

/-- C8 (amended): for every input collection, the aggregation output has
exactly one data point per distinct calendar date appearing in the input
(distinct dates, and a date occurs iff some input entry formats to it) and
is sorted strictly ascending by date string; for collections whose entries'
civil years all lie in 1000-9999 — where the date format is genuinely
zero-padded `YYYY-MM-DD` — this order moreover coincides with chronological
order: every entry of an earlier output point falls on a strictly earlier
calendar day than every entry of a later output point. -/
theorem claim_c8_one_point_per_date_sorted (logs : List LogEntry) :
    ((processChartData logs).map (fun p => p.date)).Nodup ∧
    (∀ d, d ∈ (processChartData logs).map (fun p => p.date) ↔
      ∃ e ∈ logs, formatTimestampToDateString e.timestamp = d) ∧
    (processChartData logs).Pairwise (fun p q => strLtB p.date q.date = true) ∧
    ((∀ e ∈ logs, yearInRange e.timestamp) →
      (processChartData logs).Pairwise (fun p q =>
        ∀ e1 ∈ logs, ∀ e2 ∈ logs,
          formatTimestampToDateString e1.timestamp = p.date →
          formatTimestampToDateString e2.timestamp = q.date →
          dayOfTimestamp e1.timestamp < dayOfTimestamp e2.timestamp)) := by
  refine ⟨processChartData_dates_nodup logs, processChartData_date_mem logs,
    processChartData_sorted logs, ?_⟩
  intro hyr
  refine (processChartData_sorted logs).imp ?_
  intro p q hpq e1 he1 e2 he2 hd1 hd2
  rcases lt_trichotomy (dayOfTimestamp e1.timestamp) (dayOfTimestamp e2.timestamp)
    with hlt | heq | hgt
  · exact hlt
  · exfalso
    have hfmt : formatTimestampToDateString e1.timestamp =
        formatTimestampToDateString e2.timestamp := by
      rw [formatTimestampToDateString_eq, formatTimestampToDateString_eq, heq]
    rw [hd1, hd2] at hfmt
    rw [hfmt] at hpq
    rw [strLtB_irrefl] at hpq
    exact Bool.false_ne_true hpq
  · exfalso
    have hmono := formatTimestampToDateString_mono (hyr e2 he2) (hyr e1 he1) hgt
    rw [hd1, hd2] at hmono
    have hasymm := strLtB_asymm hpq
    rw [hasymm] at hmono
    exact Bool.false_ne_true hmono

theorem claim_c8_one_point_per_date_sorted_witness :
    ((processChartData exampleLogs).map (fun p => p.date)).Nodup ∧
    (processChartData exampleLogs).Pairwise (fun p q => strLtB p.date q.date = true) ∧
    (processChartData exampleLogs).Pairwise (fun p q =>
      ∀ e1 ∈ exampleLogs, ∀ e2 ∈ exampleLogs,
        formatTimestampToDateString e1.timestamp = p.date →
        formatTimestampToDateString e2.timestamp = q.date →
        dayOfTimestamp e1.timestamp < dayOfTimestamp e2.timestamp) := by
  have h := claim_c8_one_point_per_date_sorted exampleLogs
  exact ⟨h.1, h.2.2.1, h.2.2.2 (by decide)⟩
